import Mathlib

/-!
Verification of the backup-rs core against its specification.

The Rust sources are shallowly embedded:

* machine integers (`u32`) become `Nat` with an explicit `% 2 ^ 32` at every
  operation that can wrap; the embedding follows release-mode (two's
  complement wrapping) overflow semantics, which is what the shipped binary
  does;
* `chrono::NaiveDate` becomes an unbounded day count (`Int`, days since
  1970-01-01); `chrono`'s calendar queries (weekday, day-of-month,
  ISO week, month) are implemented below with the standard civil-calendar
  algorithms; `checked_add_days` is total in this unbounded model (chrono
  only fails near year ±262143, far outside every scenario treated here);
* `chrono::NaiveDateTime` becomes a record of a day count plus
  hour/minute/second fields;
* fallible Rust code returns `Option`/`Except`;
* filesystem and OS effects (directory walks, file deletion, the scheduler
  adapter) are modelled by explicit state records and event traces.
-/

/-- The `u32` modulus: arithmetic on `u32` wraps modulo this constant. -/
def u32M : Nat := 4294967296

namespace Backup

/-- Rust `SpecifierKind` (config/src/interval/specifier.rs). The list-carrying
variants hold plain `u32` values, embedded as `Nat` (all values produced by
the program are `< u32M`). -/
inductive SpecifierKind where
  | noneK
  | allK
  | firstK
  | lastK
  | nth (n : Nat)
  | backNth (n : Nat)
  | explicitNths (l : List Nat)
  | everyNth (n offset : Nat)
  | explicitList (l : List Nat)
  deriving DecidableEq, Repr

/-- Rust `Specifier<T>` (config/src/interval/specifier.rs). The ordinal type
`T` always has a bijection to `u32` (`Into<u32>`/`From<u32>`), so the
embedding stores the `u32` images directly. -/
structure Specifier where
  min : Nat
  max : Nat
  kind : SpecifierKind
  deriving DecidableEq, Repr

namespace Specifier

/-- Rust `Specifier::is_in_range`. -/
def isInRange (s : Specifier) (x : Nat) : Bool :=
  s.min ≤ x && x ≤ s.max

/-- Rust `Specifier::range_len`. -/
def rangeLen (s : Specifier) : Nat :=
  s.max - s.min + 1

/-- Rust `Specifier::matches`. Where the Rust source performs `u32`
arithmetic that can wrap (`min + n`, `max - n`, `min + offset`), the
embedding wraps explicitly with `% u32M` (release-mode semantics). -/
def matchesB (s : Specifier) (x : Nat) : Bool :=
  if !s.isInRange x then false
  else
    match s.kind with
    | .noneK => false
    | .allK => true
    | .firstK => x == s.min
    | .lastK => x == s.max
    | .nth n => (s.min + n) % u32M == x
    | .backNth n => (s.max + (u32M - n % u32M)) % u32M == x
    | .explicitNths indices => indices.any (fun n => (s.min + n) % u32M == x)
    | .everyNth n offset =>
      let minOffset := (s.min + offset) % u32M
      if minOffset > s.max || minOffset > x then false
      else if n == 0 then x == minOffset
      else (x - minOffset) % n == 0
    | .explicitList values => values.contains x

/-- First element of `indices` (in list order) whose value `min + n` exceeds
`x`; models the `find_map` inside the `ExplicitNths` arm of
`Specifier::cyclic_next`. -/
def findAboveNths (minV x : Nat) : List Nat → Option Nat
  | [] => none
  | n :: rest =>
    if (minV + n) % u32M > x then some ((minV + n) % u32M)
    else findAboveNths minV x rest

/-- First element of `values` (in list order) exceeding `x`. On the sorted,
deduplicated lists established by `Specifier::new` this returns exactly the
element Rust's `binary_search`-based index arithmetic selects in the
`ExplicitList` arm of `cyclic_next` (`Ok(i) ↦ i + 1`, `Err(i) ↦ i`, both
being the count of elements `≤ x`). -/
def findAboveList (x : Nat) : List Nat → Option Nat
  | [] => none
  | v :: rest => if v > x then some v else findAboveList x rest

/-- Rust `Specifier::cyclic_next`. The `EveryNth` arm reproduces the source's
`f64` computation exactly for `u32` inputs: for `x ≥ min + offset` the value
`(i + 0.5).round() as u32` equals `(x - min_offset) / n + 1` saturated at
`u32::MAX` (the float quotient of two `u32`s is too accurate to cross the
next integer boundary, and `round` ties away from zero), and the final
`min_offset + i_round_up * n` wraps modulo `2^32`. -/
def cyclicNext (s : Specifier) (x : Nat) : Option Nat :=
  if !s.isInRange x then none
  else
    match s.kind with
    | .noneK => none
    | .allK => some (s.min + (x - s.min + 1) % s.rangeLen)
    | .firstK => some s.min
    | .lastK => some s.max
    | .nth n =>
      let val := (s.min + n) % u32M
      if val ≤ s.max then some val else none
    | .backNth n =>
      let val := (s.max + (u32M - n % u32M)) % u32M
      if val ≥ s.min then some val else none
    | .explicitNths indices =>
      match indices with
      | [] => none
      | n0 :: rest =>
        some ((findAboveNths s.min x (n0 :: rest)).getD ((s.min + n0) % u32M))
    | .everyNth n offset =>
      let minOffset := (s.min + offset) % u32M
      if minOffset > s.max then none
      else if n == 0 then some minOffset
      else if x < minOffset then some minOffset
      else
        let iRoundUp := Nat.min ((x - minOffset) / n + 1) (u32M - 1)
        let candidate := (minOffset + iRoundUp * n) % u32M
        if candidate ≤ s.max then some candidate else some minOffset
    | .explicitList values =>
      match values with
      | [] => none
      | v0 :: rest => some ((findAboveList x (v0 :: rest)).getD v0)

/-- Rust `Specifier::first_match`. -/
def firstMatch (s : Specifier) : Option Nat :=
  s.cyclicNext s.max

/-- Sort-and-dedup normalisation used by `Specifier::new` on the list kinds
(insertion into a strictly ascending list, dropping duplicates). -/
def insertSorted (v : Nat) : List Nat → List Nat
  | [] => [v]
  | w :: rest =>
    if v < w then v :: w :: rest
    else if v == w then w :: rest
    else w :: insertSorted v rest

/-- Result of `sort_unstable` followed by `dedup` on a `u32` vector. -/
def sortDedup (l : List Nat) : List Nat :=
  l.foldr insertSorted []

/-- Rust `Specifier::new`: swaps an inverted range and normalises the list
kinds (out-of-range entries dropped, then sorted and deduplicated). -/
def new (mn mx : Nat) (kind : SpecifierKind) : Specifier :=
  let lo := if mn > mx then mx else mn
  let hi := if mn > mx then mn else mx
  let kind' :=
    match kind with
    | .explicitList values =>
      SpecifierKind.explicitList (sortDedup (values.filter (fun v => lo ≤ v && v ≤ hi)))
    | .explicitNths indices =>
      SpecifierKind.explicitNths (sortDedup (indices.filter (fun i => i ≤ hi - lo)))
    | other => other
  ⟨lo, hi, kind'⟩

/-- Invariant established by `Specifier::new` on the list kinds: strictly
ascending (sorted and deduplicated) with only in-range values. -/
def normalizedB (s : Specifier) : Bool :=
  match s.kind with
  | .explicitNths l => decide (l.Pairwise (· < ·)) && l.all (fun i => i ≤ s.max - s.min)
  | .explicitList l => decide (l.Pairwise (· < ·)) && l.all (fun v => s.min ≤ v && v ≤ s.max)
  | _ => true

/-- No `u32` wrap-around occurs in the kind's arithmetic. -/
def noOverflowB (s : Specifier) : Bool :=
  match s.kind with
  | .nth n => s.min + n < u32M
  | .backNth n => n ≤ s.max
  | .everyNth n offset => s.min + offset < u32M && s.max + n < u32M
  | _ => true

end Specifier

end Backup

namespace Backup

namespace Specifier

theorem matchesB_false_of_lt_min {s : Specifier} {z : Nat} (h : z < s.min) :
    s.matchesB z = false := by
  have hr : s.isInRange z = false := by
    simp only [isInRange, Bool.and_eq_false_iff, decide_eq_false_iff_not]
    omega
  simp [matchesB, hr]

theorem matchesB_false_of_gt_max {s : Specifier} {z : Nat} (h : s.max < z) :
    s.matchesB z = false := by
  have hr : s.isInRange z = false := by
    simp only [isInRange, Bool.and_eq_false_iff, decide_eq_false_iff_not]
    omega
  simp [matchesB, hr]

theorem inRange_of_matchesB {s : Specifier} {z : Nat} (h : s.matchesB z = true) :
    s.min ≤ z ∧ z ≤ s.max := by
  by_contra hc
  rcases Nat.lt_or_ge z s.min with h1 | h1
  · rw [matchesB_false_of_lt_min h1] at h; exact Bool.false_ne_true h
  · rcases Nat.lt_or_ge s.max z with h2 | h2
    · rw [matchesB_false_of_gt_max h2] at h; exact Bool.false_ne_true h
    · exact hc ⟨h1, h2⟩

theorem findAboveNths_spec (mn x : Nat) (l : List Nat) (hs : l.Pairwise (· < ·))
    (hb : ∀ i ∈ l, mn + i < u32M) :
    (∀ v, findAboveNths mn x l = some v →
      (∃ i ∈ l, mn + i = v) ∧ v > x ∧ ∀ i ∈ l, mn + i > x → v ≤ mn + i) ∧
    (findAboveNths mn x l = none → ∀ i ∈ l, mn + i ≤ x) := by
  induction l with
  | nil => simp [findAboveNths]
  | cons n rest ih =>
    rw [List.pairwise_cons] at hs
    obtain ⟨hn, hrest⟩ := hs
    have ih' := ih hrest (fun i hi => hb i (List.mem_cons_of_mem n hi))
    have hnmod : (mn + n) % u32M = mn + n :=
      Nat.mod_eq_of_lt (hb n (List.mem_cons_self n rest))
    constructor
    · intro v hv
      by_cases hgt : (mn + n) % u32M > x
      · rw [findAboveNths, if_pos hgt] at hv
        injection hv with hv
        subst hv
        rw [hnmod] at hgt ⊢
        refine ⟨⟨n, List.mem_cons_self n rest, rfl⟩, hgt, ?_⟩
        intro i hi _
        rcases List.mem_cons.mp hi with h | h
        · subst h; exact Nat.le_refl _
        · have := hn i h; omega
      · rw [findAboveNths, if_neg hgt] at hv
        obtain ⟨⟨i, hi, hiv⟩, hvx, hmin⟩ := (ih'.1 v hv)
        refine ⟨⟨i, List.mem_cons_of_mem n hi, hiv⟩, hvx, ?_⟩
        intro j hj hjx
        rcases List.mem_cons.mp hj with h | h
        · subst h; omega
        · exact hmin j h hjx
    · intro hnone i hi
      by_cases hgt : (mn + n) % u32M > x
      · rw [findAboveNths, if_pos hgt] at hnone; exact absurd hnone (by simp)
      · rw [findAboveNths, if_neg hgt] at hnone
        rcases List.mem_cons.mp hi with h | h
        · subst h; omega
        · exact ih'.2 hnone i h

end Specifier

end Backup

namespace Backup

namespace Specifier

theorem findAboveList_spec (x : Nat) (l : List Nat) (hs : l.Pairwise (· < ·)) :
    (∀ v, findAboveList x l = some v →
      v ∈ l ∧ v > x ∧ ∀ w ∈ l, w > x → v ≤ w) ∧
    (findAboveList x l = none → ∀ w ∈ l, w ≤ x) := by
  induction l with
  | nil => simp [findAboveList]
  | cons n rest ih =>
    rw [List.pairwise_cons] at hs
    obtain ⟨hn, hrest⟩ := hs
    have ih' := ih hrest
    constructor
    · intro v hv
      by_cases hgt : n > x
      · rw [findAboveList, if_pos hgt] at hv
        injection hv with hv
        subst hv
        refine ⟨List.mem_cons_self n rest, hgt, ?_⟩
        intro w hw _
        rcases List.mem_cons.mp hw with h | h
        · subst h; exact Nat.le_refl _
        · have := hn w h; omega
      · rw [findAboveList, if_neg hgt] at hv
        obtain ⟨hm, hvx, hmin⟩ := ih'.1 v hv
        refine ⟨List.mem_cons_of_mem n hm, hvx, ?_⟩
        intro w hw hwx
        rcases List.mem_cons.mp hw with h | h
        · subst h; omega
        · exact hmin w h hwx
    · intro hnone w hw
      by_cases hgt : n > x
      · rw [findAboveList, if_pos hgt] at hnone; exact absurd hnone (by simp)
      · rw [findAboveList, if_neg hgt] at hnone
        rcases List.mem_cons.mp hw with h | h
        · subst h; omega
        · exact ih'.2 hnone w h

/-- The behaviour §4.1 ascribes to `cyclic_next` at an in-range input `x`:
the result matches; when it lies above `x` nothing in between matches
(smallest match above `x`); when it wraps to `y ≤ x` there is no match above
`x` at all and nothing below `y` matches (first match of the range); `none`
is answered exactly when nothing matches. -/
def CyclicSpec (s : Specifier) (x : Nat) : Prop :=
  match s.cyclicNext x with
  | some y =>
      s.matchesB y = true ∧
      (x < y → ∀ z, x < z → z < y → s.matchesB z = false) ∧
      (y ≤ x → (∀ z, x < z → s.matchesB z = false) ∧ (∀ z, z < y → s.matchesB z = false))
  | none => ∀ z, s.matchesB z = false

end Specifier

end Backup

namespace Backup

namespace Specifier

theorem isInRange_true {s : Specifier} {x : Nat} (h1 : s.min ≤ x) (h2 : x ≤ s.max) :
    s.isInRange x = true := by
  simp [isInRange, h1, h2]

theorem cyclicSpec_noneK (mn mx x : Nat) (hx1 : mn ≤ x) (hx2 : x ≤ mx) :
    CyclicSpec ⟨mn, mx, .noneK⟩ x := by
  have hr := isInRange_true (s := ⟨mn, mx, .noneK⟩) hx1 hx2
  simp only [CyclicSpec, cyclicNext, hr, Bool.not_true, Bool.false_eq_true, if_false]
  intro z
  simp [matchesB]

theorem cyclicSpec_allK (mn mx x : Nat) (hmm : mn ≤ mx) (hx1 : mn ≤ x) (hx2 : x ≤ mx) :
    CyclicSpec ⟨mn, mx, .allK⟩ x := by
  have hr := isInRange_true (s := ⟨mn, mx, .allK⟩) hx1 hx2
  simp only [CyclicSpec, cyclicNext, hr, Bool.not_true, Bool.false_eq_true, if_false]
  rcases Nat.lt_or_ge x mx with hlt | hge
  · have hmod : (x - mn + 1) % rangeLen ⟨mn, mx, .allK⟩ = x - mn + 1 := by
      apply Nat.mod_eq_of_lt
      simp only [rangeLen]
      omega
    rw [hmod]
    have hy : mn + (x - mn + 1) = x + 1 := by omega
    rw [hy]
    refine ⟨?_, ?_, ?_⟩
    · simp [matchesB, isInRange]; omega
    · intro _ z hz1 hz2; omega
    · intro h; omega
  · have hxm : x = mx := by omega
    have hmod : (x - mn + 1) % rangeLen ⟨mn, mx, .allK⟩ = 0 := by
      rw [hxm]
      simp only [rangeLen]
      exact Nat.mod_self _
    rw [hmod, Nat.add_zero]
    refine ⟨?_, ?_, ?_⟩
    · simp [matchesB, isInRange]; omega
    · intro h; omega
    · intro _
      constructor
      · intro z hz
        exact matchesB_false_of_gt_max (show mx < z by omega)
      · intro z hz
        exact matchesB_false_of_lt_min (show z < mn by omega)

theorem cyclicSpec_firstK (mn mx x : Nat) (hx1 : mn ≤ x) (hx2 : x ≤ mx) :
    CyclicSpec ⟨mn, mx, .firstK⟩ x := by
  have hr := isInRange_true (s := ⟨mn, mx, .firstK⟩) hx1 hx2
  simp only [CyclicSpec, cyclicNext, hr, Bool.not_true, Bool.false_eq_true, if_false]
  refine ⟨?_, ?_, ?_⟩
  · simp [matchesB, isInRange]; omega
  · intro h; omega
  · intro _
    constructor
    · intro z hz
      by_cases hzm : z ≤ mx
      · have : ¬(z == mn) = true := by simp; omega
        simp [matchesB, isInRange]
        omega
      · exact matchesB_false_of_gt_max (by simp; omega)
    · intro z hz
      exact matchesB_false_of_lt_min (by simpa using hz)

theorem cyclicSpec_lastK (mn mx x : Nat) (hx1 : mn ≤ x) (hx2 : x ≤ mx) :
    CyclicSpec ⟨mn, mx, .lastK⟩ x := by
  have hr := isInRange_true (s := ⟨mn, mx, .lastK⟩) hx1 hx2
  simp only [CyclicSpec, cyclicNext, hr, Bool.not_true, Bool.false_eq_true, if_false]
  refine ⟨?_, ?_, ?_⟩
  · simp [matchesB, isInRange]; omega
  · intro _ z hz1 hz2
    by_cases hzm : mn ≤ z
    · simp [matchesB, isInRange]
      omega
    · exact matchesB_false_of_lt_min (by simp; omega)
  · intro h
    have hxm : x = mx := by omega
    subst hxm
    constructor
    · intro z hz
      exact matchesB_false_of_gt_max (by simpa using hz)
    · intro z hz
      by_cases hzm : mn ≤ z
      · simp [matchesB, isInRange]
        omega
      · exact matchesB_false_of_lt_min (by simp; omega)

end Specifier

end Backup

namespace Backup

namespace Specifier

theorem cyclicSpec_nth (mn mx n x : Nat) (ho : mn + n < u32M)
    (hx1 : mn ≤ x) (hx2 : x ≤ mx) :
    CyclicSpec ⟨mn, mx, .nth n⟩ x := by
  have hr := isInRange_true (s := ⟨mn, mx, .nth n⟩) hx1 hx2
  have hmod : (mn + n) % u32M = mn + n := Nat.mod_eq_of_lt ho
  simp only [CyclicSpec, cyclicNext, hr, Bool.not_true, Bool.false_eq_true, if_false, hmod]
  by_cases hv : mn + n ≤ mx
  · rw [if_pos hv]
    have hmatch : matchesB ⟨mn, mx, .nth n⟩ (mn + n) = true := by
      simp [matchesB, isInRange, hmod]
      omega
    have hother : ∀ z, z ≠ mn + n → matchesB ⟨mn, mx, .nth n⟩ z = false := by
      intro z hz
      by_cases hzr : mn ≤ z ∧ z ≤ mx
      · simp [matchesB, isInRange, hmod]
        omega
      · rcases Nat.lt_or_ge z mn with h | h
        · exact matchesB_false_of_lt_min (show z < mn by omega)
        · exact matchesB_false_of_gt_max (show mx < z by omega)
    refine ⟨hmatch, ?_, ?_⟩
    · intro hxy z hz1 hz2
      exact hother z (by omega)
    · intro hyx
      exact ⟨fun z hz => hother z (by omega), fun z hz => hother z (by omega)⟩
  · rw [if_neg hv]
    intro z
    by_cases hzr : mn ≤ z ∧ z ≤ mx
    · simp [matchesB, isInRange, hmod]
      omega
    · rcases Nat.lt_or_ge z mn with h | h
      · exact matchesB_false_of_lt_min (show z < mn by omega)
      · exact matchesB_false_of_gt_max (show mx < z by omega)

theorem cyclicSpec_backNth (mn mx n x : Nat) (hu : mx < u32M) (ho : n ≤ mx)
    (hx1 : mn ≤ x) (hx2 : x ≤ mx) :
    CyclicSpec ⟨mn, mx, .backNth n⟩ x := by
  have hr := isInRange_true (s := ⟨mn, mx, .backNth n⟩) hx1 hx2
  have hnm : n % u32M = n := Nat.mod_eq_of_lt (by omega)
  have hmod : (mx + (u32M - n % u32M)) % u32M = mx - n := by
    rw [hnm]
    have h1 : mx + (u32M - n) = (mx - n) + u32M := by omega
    rw [h1, Nat.add_mod_right]
    exact Nat.mod_eq_of_lt (by omega)
  simp only [CyclicSpec, cyclicNext, hr, Bool.not_true, Bool.false_eq_true, if_false, hmod]
  have hother : ∀ z, z ≠ mx - n → matchesB ⟨mn, mx, .backNth n⟩ z = false := by
    intro z hz
    by_cases hzr : mn ≤ z ∧ z ≤ mx
    · simp [matchesB, isInRange, hmod]
      omega
    · rcases Nat.lt_or_ge z mn with h | h
      · exact matchesB_false_of_lt_min (show z < mn by omega)
      · exact matchesB_false_of_gt_max (show mx < z by omega)
  by_cases hv : mx - n ≥ mn
  · rw [if_pos (by simpa using hv)]
    have hmatch : matchesB ⟨mn, mx, .backNth n⟩ (mx - n) = true := by
      simp [matchesB, isInRange, hmod]
      omega
    refine ⟨hmatch, ?_, ?_⟩
    · intro hxy z hz1 hz2
      exact hother z (by omega)
    · intro hyx
      exact ⟨fun z hz => hother z (by omega), fun z hz => hother z (by omega)⟩
  · rw [if_neg (by simpa using hv)]
    intro z
    by_cases hzc : z = mx - n
    · subst hzc
      exact matchesB_false_of_lt_min (show mx - n < mn by omega)
    · exact hother z hzc

end Specifier

end Backup

namespace Backup

namespace Specifier

theorem everyNth_matches_iff (mn mx n off z : Nat) (ho1 : mn + off < u32M) :
    matchesB ⟨mn, mx, .everyNth n off⟩ z = true ↔
      (mn ≤ z ∧ z ≤ mx ∧ mn + off ≤ mx ∧ mn + off ≤ z ∧
        ((n = 0 ∧ z = mn + off) ∨ (n ≠ 0 ∧ (z - (mn + off)) % n = 0))) := by
  have hmo : (mn + off) % u32M = mn + off := Nat.mod_eq_of_lt ho1
  by_cases hzr : mn ≤ z ∧ z ≤ mx
  · have hrz := isInRange_true (s := ⟨mn, mx, .everyNth n off⟩) hzr.1 hzr.2
    simp only [matchesB, hrz, Bool.not_true, Bool.false_eq_true, if_false, hmo]
    by_cases hc1 : mn + off > mx
    · rw [if_pos (by simp; omega)]
      simp
      omega
    · by_cases hc1' : mn + off > z
      · rw [if_pos (by simp; omega)]
        simp
        omega
      · rw [if_neg (by simp; omega)]
        by_cases hn0 : n = 0
        · rw [if_pos (by simpa using hn0)]
          simp [hn0]
          omega
        · rw [if_neg (by simpa using hn0)]
          simp [hn0]
          constructor
          · intro h
            exact ⟨hzr.1, hzr.2, by omega, by omega, h⟩
          · intro h
            exact h.2.2.2.2
  · constructor
    · intro h
      have := inRange_of_matchesB h
      exact absurd ⟨this.1, this.2⟩ hzr
    · intro h
      exact absurd ⟨h.1, h.2.1⟩ hzr

theorem everyNth_above (mo n q x z : Nat) (_hn : 0 < n) (hq : q = (x - mo) / n)
    (hmx : mo ≤ x) (hz : mo ≤ z) (hzx : x < z) (hmod : (z - mo) % n = 0) :
    mo + (q + 1) * n ≤ z := by
  obtain ⟨k, hk⟩ := Nat.dvd_of_mod_eq_zero hmod
  have h1 : q * n ≤ x - mo := by
    rw [hq]
    exact Nat.div_mul_le_self _ _
  have h2 : x - mo < z - mo := by omega
  have h3 : q * n < n * k := lt_of_le_of_lt h1 (hk ▸ h2)
  have h4 : q < k := Nat.lt_of_mul_lt_mul_left (a := n) (by rw [Nat.mul_comm n q]; exact h3)
  have h5 : n * (q + 1) ≤ n * k := Nat.mul_le_mul_left n (by omega)
  have h6 : mo + (n * k) = z := by
    rw [← hk]
    exact Nat.add_sub_cancel' hz
  calc mo + (q + 1) * n = mo + n * (q + 1) := by rw [Nat.mul_comm]
    _ ≤ mo + n * k := Nat.add_le_add_left h5 mo
    _ = z := h6

theorem cyclicSpec_everyNth (mn mx n off x : Nat)
    (ho1 : mn + off < u32M) (ho2 : mx + n < u32M)
    (hx1 : mn ≤ x) (hx2 : x ≤ mx) :
    CyclicSpec ⟨mn, mx, .everyNth n off⟩ x := by
  have hr := isInRange_true (s := ⟨mn, mx, .everyNth n off⟩) hx1 hx2
  have hmo : (mn + off) % u32M = mn + off := Nat.mod_eq_of_lt ho1
  have hchar := fun z => everyNth_matches_iff mn mx n off z ho1
  have hcharF : ∀ z, ¬(mn ≤ z ∧ z ≤ mx ∧ mn + off ≤ mx ∧ mn + off ≤ z ∧
      ((n = 0 ∧ z = mn + off) ∨ (n ≠ 0 ∧ (z - (mn + off)) % n = 0))) →
      matchesB ⟨mn, mx, .everyNth n off⟩ z = false := by
    intro z hz
    rcases Bool.dichotomy (matchesB ⟨mn, mx, .everyNth n off⟩ z) with h | h
    · exact h
    · exact absurd ((hchar z).1 h) hz
  simp only [CyclicSpec, cyclicNext, hr, Bool.not_true, Bool.false_eq_true, if_false, hmo]
  by_cases hc1 : mn + off > mx
  · rw [if_pos hc1]
    intro z
    exact hcharF z (by omega)
  · rw [if_neg hc1]
    by_cases hn0 : n = 0
    · rw [if_pos (by simpa using hn0)]
      have hm : matchesB ⟨mn, mx, .everyNth n off⟩ (mn + off) = true :=
        (hchar _).2 ⟨by omega, by omega, by omega, Nat.le_refl _, Or.inl ⟨hn0, rfl⟩⟩
      refine ⟨hm, ?_, ?_⟩
      · intro hxy z hz1 hz2
        exact hcharF z (by omega)
      · intro hyx
        refine ⟨fun z hz => hcharF z (by omega), fun z hz => hcharF z (by omega)⟩
    · rw [if_neg (by simpa using hn0)]
      have hnpos : 0 < n := Nat.pos_of_ne_zero hn0
      by_cases hc3 : x < mn + off
      · rw [if_pos hc3]
        have hm : matchesB ⟨mn, mx, .everyNth n off⟩ (mn + off) = true :=
          (hchar _).2 ⟨by omega, by omega, by omega, Nat.le_refl _,
            Or.inr ⟨hn0, by simp⟩⟩
        refine ⟨hm, ?_, ?_⟩
        · intro hxy z hz1 hz2
          exact hcharF z (by omega)
        · intro hyx
          omega
      · rw [if_neg hc3]
        -- the saturated rounding step collapses to q + 1
        have hsat : Nat.min ((x - (mn + off)) / n + 1) (u32M - 1) =
            (x - (mn + off)) / n + 1 := by
          apply Nat.min_eq_left
          have : (x - (mn + off)) / n ≤ x - (mn + off) := Nat.div_le_self _ _
          omega
        rw [hsat]
        set q := (x - (mn + off)) / n with hq
        -- the candidate does not wrap
        have hqn : q * n ≤ x - (mn + off) := by
          rw [hq]
          exact Nat.div_mul_le_self _ _
        have hcb : mn + off + (q + 1) * n ≤ x + n := by
          have : (q + 1) * n = q * n + n := by ring
          omega
        have hcmod : (mn + off + (q + 1) * n) % u32M = mn + off + (q + 1) * n :=
          Nat.mod_eq_of_lt (by omega)
        rw [hcmod]
        -- the candidate is the smallest multiple strictly above x
        have hcx : x < mn + off + (q + 1) * n := by
          have e1 : n * q + (x - (mn + off)) % n = x - (mn + off) := by
            rw [hq]
            exact Nat.div_add_mod _ _
          have e2 : (x - (mn + off)) % n < n := Nat.mod_lt _ hnpos
          have e3 : (q + 1) * n = n * q + n := by ring
          omega
        have hcm : (mn + off + (q + 1) * n - (mn + off)) % n = 0 := by
          simp [Nat.add_sub_cancel_left, Nat.mul_mod_left]
        by_cases hc4 : mn + off + (q + 1) * n ≤ mx
        · rw [if_pos hc4]
          have hm : matchesB ⟨mn, mx, .everyNth n off⟩ (mn + off + (q + 1) * n) = true :=
            (hchar _).2 ⟨by omega, hc4, by omega, by omega, Or.inr ⟨hn0, hcm⟩⟩
          refine ⟨hm, ?_, ?_⟩
          · intro hxy z hz1 hz2
            apply hcharF
            intro ⟨h1, h2, h3, h4, hor⟩
            rcases hor with ⟨h0, _⟩ | ⟨_, hmodz⟩
            · exact hn0 h0
            · have := everyNth_above (mn + off) n q x z hnpos hq (by omega) h4 hz1 hmodz
              omega
          · intro hyx
            omega
        · rw [if_neg hc4]
          have hm : matchesB ⟨mn, mx, .everyNth n off⟩ (mn + off) = true :=
            (hchar _).2 ⟨by omega, by omega, by omega, Nat.le_refl _,
              Or.inr ⟨hn0, by simp⟩⟩
          refine ⟨hm, ?_, ?_⟩
          · intro hxy
            omega
          · intro hyx
            constructor
            · intro z hz
              apply hcharF
              intro ⟨h1, h2, h3, h4, hor⟩
              rcases hor with ⟨h0, _⟩ | ⟨_, hmodz⟩
              · exact hn0 h0
              · have := everyNth_above (mn + off) n q x z hnpos hq (by omega) h4 hz hmodz
                omega
            · intro z hz
              exact hcharF z (by omega)

end Specifier

end Backup

namespace Backup

namespace Specifier

theorem explicitNths_matches_iff (mn mx : Nat) (l : List Nat) (z : Nat)
    (hmm : mn ≤ mx) (hu : mx < u32M) (hb : ∀ i ∈ l, i ≤ mx - mn) :
    matchesB ⟨mn, mx, .explicitNths l⟩ z = true ↔ ∃ i ∈ l, mn + i = z := by
  have hmod : ∀ i ∈ l, (mn + i) % u32M = mn + i := fun i hi =>
    Nat.mod_eq_of_lt (by have := hb i hi; omega)
  by_cases hzr : mn ≤ z ∧ z ≤ mx
  · have hrz := isInRange_true (s := ⟨mn, mx, .explicitNths l⟩) hzr.1 hzr.2
    simp only [matchesB, hrz, Bool.not_true, Bool.false_eq_true, if_false,
      List.any_eq_true, beq_iff_eq]
    constructor
    · intro ⟨i, hi, hiz⟩
      exact ⟨i, hi, by rw [← hmod i hi]; exact hiz⟩
    · intro ⟨i, hi, hiz⟩
      exact ⟨i, hi, by rw [hmod i hi]; exact hiz⟩
  · constructor
    · intro h
      have := inRange_of_matchesB h
      exact absurd ⟨this.1, this.2⟩ hzr
    · intro ⟨i, hi, hiz⟩
      have := hb i hi
      omega

theorem cyclicSpec_explicitNths (mn mx x : Nat) (l : List Nat)
    (hmm : mn ≤ mx) (hu : mx < u32M)
    (hs : l.Pairwise (· < ·)) (hb : ∀ i ∈ l, i ≤ mx - mn)
    (hx1 : mn ≤ x) (hx2 : x ≤ mx) :
    CyclicSpec ⟨mn, mx, .explicitNths l⟩ x := by
  have hr := isInRange_true (s := ⟨mn, mx, .explicitNths l⟩) hx1 hx2
  have hchar := fun z => explicitNths_matches_iff mn mx l z hmm hu hb
  have hcharF : ∀ z, (¬∃ i ∈ l, mn + i = z) →
      matchesB ⟨mn, mx, .explicitNths l⟩ z = false := by
    intro z hz
    rcases Bool.dichotomy (matchesB ⟨mn, mx, .explicitNths l⟩ z) with h | h
    · exact h
    · exact absurd ((hchar z).1 h) hz
  simp only [CyclicSpec, cyclicNext, hr, Bool.not_true, Bool.false_eq_true, if_false]
  match l, hs, hb, hchar, hcharF with
  | [], _, _, _, hcharF =>
    intro z
    exact hcharF z (by simp)
  | n0 :: rest, hs, hb, hchar, hcharF =>
    have hbu : ∀ i ∈ n0 :: rest, mn + i < u32M := fun i hi => by
      have := hb i hi; omega
    have hfs := findAboveNths_spec mn x (n0 :: rest) hs hbu
    have hn0m : (mn + n0) % u32M = mn + n0 := Nat.mod_eq_of_lt (hbu n0 (by simp))
    have hn0least : ∀ i ∈ n0 :: rest, n0 ≤ i := by
      intro i hi
      rcases List.mem_cons.mp hi with h | h
      · omega
      · rw [List.pairwise_cons] at hs
        have := hs.1 i h
        omega
    cases hfind : findAboveNths mn x (n0 :: rest) with
    | some v =>
      obtain ⟨⟨i, hi, hiv⟩, hvx, hmin⟩ := hfs.1 v hfind
      simp only [hfind, Option.getD_some]
      refine ⟨(hchar v).2 ⟨i, hi, hiv⟩, ?_, ?_⟩
      · intro hxy z hz1 hz2
        apply hcharF
        intro ⟨j, hj, hjz⟩
        have := hmin j hj (by omega)
        omega
      · intro hyx
        omega
    | none =>
      have hall := hfs.2 hfind
      simp only [hfind, Option.getD_none, hn0m]
      have hy : mn + n0 ≤ x := hall n0 (by simp)
      refine ⟨(hchar _).2 ⟨n0, by simp, rfl⟩, ?_, ?_⟩
      · intro hxy
        omega
      · intro _
        constructor
        · intro z hz
          apply hcharF
          intro ⟨j, hj, hjz⟩
          have := hall j hj
          omega
        · intro z hz
          apply hcharF
          intro ⟨j, hj, hjz⟩
          have := hn0least j hj
          omega

theorem cyclicSpec_explicitList (mn mx x : Nat) (l : List Nat)
    (hs : l.Pairwise (· < ·)) (hb : ∀ v ∈ l, mn ≤ v ∧ v ≤ mx)
    (hx1 : mn ≤ x) (hx2 : x ≤ mx) :
    CyclicSpec ⟨mn, mx, .explicitList l⟩ x := by
  have hr := isInRange_true (s := ⟨mn, mx, .explicitList l⟩) hx1 hx2
  have hchar : ∀ z, matchesB ⟨mn, mx, .explicitList l⟩ z = true ↔ z ∈ l := by
    intro z
    by_cases hzr : mn ≤ z ∧ z ≤ mx
    · have hrz := isInRange_true (s := ⟨mn, mx, .explicitList l⟩) hzr.1 hzr.2
      simp [matchesB, hrz]
    · constructor
      · intro h
        have := inRange_of_matchesB h
        exact absurd ⟨this.1, this.2⟩ hzr
      · intro h
        exact absurd (hb z h) hzr
  have hcharF : ∀ z, z ∉ l → matchesB ⟨mn, mx, .explicitList l⟩ z = false := by
    intro z hz
    rcases Bool.dichotomy (matchesB ⟨mn, mx, .explicitList l⟩ z) with h | h
    · exact h
    · exact absurd ((hchar z).1 h) hz
  simp only [CyclicSpec, cyclicNext, hr, Bool.not_true, Bool.false_eq_true, if_false]
  match l, hs, hb, hchar, hcharF with
  | [], _, _, _, hcharF =>
    intro z
    exact hcharF z (by simp)
  | v0 :: rest, hs, hb, hchar, hcharF =>
    have hfs := findAboveList_spec x (v0 :: rest) hs
    have hv0least : ∀ w ∈ v0 :: rest, v0 ≤ w := by
      intro w hw
      rcases List.mem_cons.mp hw with h | h
      · omega
      · rw [List.pairwise_cons] at hs
        have := hs.1 w h
        omega
    cases hfind : findAboveList x (v0 :: rest) with
    | some v =>
      obtain ⟨hm, hvx, hmin⟩ := hfs.1 v hfind
      simp only [hfind, Option.getD_some]
      refine ⟨(hchar v).2 hm, ?_, ?_⟩
      · intro hxy z hz1 hz2
        apply hcharF
        intro hj
        have := hmin z hj (by omega)
        omega
      · intro hyx
        omega
    | none =>
      have hall := hfs.2 hfind
      simp only [hfind, Option.getD_none]
      have hy : v0 ≤ x := hall v0 (by simp)
      refine ⟨(hchar _).2 (by simp), ?_, ?_⟩
      · intro hxy
        omega
      · intro _
        constructor
        · intro z hz
          apply hcharF
          intro hj
          have := hall z hj
          omega
        · intro z hz
          apply hcharF
          intro hj
          have := hv0least z hj
          omega

end Specifier

end Backup

namespace Backup

namespace Specifier

/-- Master lemma: on the invariants established by `Specifier::new`
(`min ≤ max`, normalised lists) and in the absence of `u32` wrap-around,
`cyclic_next` behaves as §4.1 describes at every in-range input. -/
theorem cyclicNext_correct (s : Specifier) (hmm : s.min ≤ s.max) (hu : s.max < u32M)
    (hn : s.normalizedB = true) (ho : s.noOverflowB = true)
    (x : Nat) (hx1 : s.min ≤ x) (hx2 : x ≤ s.max) : CyclicSpec s x := by
  obtain ⟨mn, mx, k⟩ := s
  cases k with
  | noneK => exact cyclicSpec_noneK mn mx x hx1 hx2
  | allK => exact cyclicSpec_allK mn mx x hmm hx1 hx2
  | firstK => exact cyclicSpec_firstK mn mx x hx1 hx2
  | lastK => exact cyclicSpec_lastK mn mx x hx1 hx2
  | nth n =>
    simp only [noOverflowB, decide_eq_true_eq] at ho
    exact cyclicSpec_nth mn mx n x ho hx1 hx2
  | backNth n =>
    simp only [noOverflowB, decide_eq_true_eq] at ho
    exact cyclicSpec_backNth mn mx n x hu ho hx1 hx2
  | explicitNths l =>
    simp only [normalizedB, Bool.and_eq_true, decide_eq_true_eq, List.all_eq_true] at hn
    exact cyclicSpec_explicitNths mn mx x l hmm hu hn.1 hn.2 hx1 hx2
  | everyNth n off =>
    simp only [noOverflowB, Bool.and_eq_true, decide_eq_true_eq] at ho
    exact cyclicSpec_everyNth mn mx n off x ho.1 ho.2 hx1 hx2
  | explicitList l =>
    simp only [normalizedB, Bool.and_eq_true, decide_eq_true_eq, List.all_eq_true] at hn
    have hb : ∀ v ∈ l, mn ≤ v ∧ v ≤ mx := by
      intro v hv
      have := hn.2 v hv
      simp only [Bool.and_eq_true, decide_eq_true_eq] at this
      exact this
    exact cyclicSpec_explicitList mn mx x l hn.1 hb hx1 hx2

theorem cyclicNext_out_of_range (s : Specifier) (x : Nat)
    (h : x < s.min ∨ s.max < x) : s.cyclicNext x = none := by
  have hr : s.isInRange x = false := by
    simp only [isInRange, Bool.and_eq_false_iff, decide_eq_false_iff_not]
    omega
  simp [cyclicNext, hr]

end Specifier

end Backup

namespace Backup

/-- C4 (amended): for every Specifier carrying the invariants established by
construction (`min ≤ max` after the swap, list kinds sorted, deduplicated and
in range) and whose kind parameters do not overflow `u32` arithmetic
(`BackNth`: `n ≤ max`; `Nth`: `min + n < 2^32`; `EveryNth(step, offset)`:
`min + offset < 2^32` and `max + step < 2^32`), `cyclic_next` at every
in-range `x` returns the smallest matching `y > x` when one exists, otherwise
wraps to the smallest matching element of the range, and returns `none`
exactly when no value matches; and for any `x` outside `[min, max]` both
`matches` and `cyclic_next` return `false`/`none`.  Without the overflow
bounds the wrapped `u32` arithmetic can answer a non-matching value, see the
counterexample. -/
theorem claim_C4_cyclic_next (s : Specifier)
    (hmm : s.min ≤ s.max) (hu : s.max < u32M)
    (hn : s.normalizedB = true) (ho : s.noOverflowB = true) :
    (∀ x, s.min ≤ x → x ≤ s.max → Specifier.CyclicSpec s x) ∧
    (∀ x, x < s.min ∨ s.max < x → s.matchesB x = false ∧ s.cyclicNext x = none) := by
  constructor
  · intro x hx1 hx2
    exact Specifier.cyclicNext_correct s hmm hu hn ho x hx1 hx2
  · intro x hx
    refine ⟨?_, Specifier.cyclicNext_out_of_range s x hx⟩
    rcases hx with h | h
    · exact Specifier.matchesB_false_of_lt_min h
    · exact Specifier.matchesB_false_of_gt_max h

/-- C4 counterexample: the constructed specifier `Specifier::new(0, 10,
BackNth(20))` matches no value of its range `[0, 10]`, yet `cyclic_next(5)`
is not `none`: the wrapping `u32` subtraction `max - n` makes it answer
`Some(4294967286)` (debug builds would panic on the overflow instead), so
"`cyclic_next` returns none exactly when no value in the range matches" is
false as stated. -/
theorem claim_C4_counterexample :
    (Specifier.new 0 10 (.backNth 20)).min = 0 ∧
    (Specifier.new 0 10 (.backNth 20)).max = 10 ∧
    (∀ z, z ≤ 10 → (Specifier.new 0 10 (.backNth 20)).matchesB z = false) ∧
    (Specifier.new 0 10 (.backNth 20)).cyclicNext 5 = some 4294967286 := by
  refine ⟨rfl, rfl, ?_, by decide⟩
  decide

/-- C4 witness: the amended theorem applied to the constructed specifier
`Specifier::new(10, 20, EveryNth(3, 2))` at the in-range input `15`. -/
theorem claim_C4_witness :
    Specifier.CyclicSpec (Specifier.new 10 20 (.everyNth 3 2)) 15 :=
  (claim_C4_cyclic_next (Specifier.new 10 20 (.everyNth 3 2))
    (by decide) (by decide) (by decide) (by decide)).1 15 (by decide) (by decide)

end Backup

namespace Backup

/-!
Calendar layer.  `chrono::NaiveDate` is embedded as the number of days since
1970-01-01 (an unbounded `Int`).  The conversions to and from the civil
calendar follow the standard era-based algorithms (the same proleptic
Gregorian calendar chrono implements); they are used computationally by
`Interval::matches_date` and are not otherwise reasoned about.
-/

/-- Days from 1970-01-01 of the civil date `(y, m, d)` (month `1..12`,
day `1..`). -/
def daysFromCivil (y : Int) (m d : Nat) : Int :=
  let y' := y - (if m ≤ 2 then 1 else 0)
  let era := Int.fdiv y' 400
  let yoe := (y' - era * 400).toNat
  let mp := (m + 9) % 12
  let doy := (153 * mp + 2) / 5 + d - 1
  let doe := yoe * 365 + yoe / 4 - yoe / 100 + doy
  era * 146097 + doe - 719468

/-- Civil date `(y, m, d)` of the day count `z`. -/
def civilFromDays (z : Int) : Int × Nat × Nat :=
  let z' := z + 719468
  let era := Int.fdiv z' 146097
  let doe := (z' - era * 146097).toNat
  let yoe := (doe - doe / 1460 + doe / 36524 - doe / 146096) / 365
  let y := era * 400 + yoe
  let doy := doe - (365 * yoe + yoe / 4 - yoe / 100)
  let mp := (5 * doy + 2) / 153
  let d := doy - (153 * mp + 2) / 5 + 1
  let m := if mp < 10 then mp + 3 else mp - 9
  (y + (if m ≤ 2 then 1 else 0), m, d)

/-- `chrono`: `date.weekday().num_days_from_monday()` (Monday = 0). Day 0 =
1970-01-01 was a Thursday. -/
def dayOfWeekMon0 (z : Int) : Nat :=
  ((z + 3).emod 7).toNat

/-- `chrono`: `date.day0()` (zero-based day of month). -/
def day0 (z : Int) : Nat :=
  (civilFromDays z).2.2 - 1

/-- `chrono`: `date.month0()` (zero-based month). -/
def month0 (z : Int) : Nat :=
  (civilFromDays z).2.1 - 1

/-- Proleptic Gregorian leap year. -/
def isLeap (y : Int) : Bool :=
  (y.emod 4 == 0 && y.emod 100 != 0) || y.emod 400 == 0

/-- Number of ISO weeks (52 or 53) in year `y`: 53 iff Jan 1 falls on
Thursday, or on Wednesday in a leap year. -/
def isoWeeksInYear (y : Int) : Nat :=
  let wd := dayOfWeekMon0 (daysFromCivil y 1 1)
  if wd == 3 || (isLeap y && wd == 2) then 53 else 52

/-- `chrono`: `date.iso_week().week0()` — the zero-based ISO 8601 week
number of the day count `z`. -/
def isoWeek0 (z : Int) : Nat :=
  let y := (civilFromDays z).1
  let wd := dayOfWeekMon0 z + 1
  let ord := (z - daysFromCivil y 1 1).toNat + 1
  let w := (ord + 10 - wd) / 7
  if w = 0 then isoWeeksInYear (y - 1) - 1
  else if w = 53 && isoWeeksInYear y = 52 then 0
  else w - 1

/-- `chrono::NaiveDateTime`: a date (day count) with a time of day. -/
structure DateTime where
  date : Int
  hour : Nat
  minute : Nat
  second : Nat
  deriving DecidableEq, Repr

namespace DateTime

/-- Seconds-of-day key; orders times of day the way `chrono::NaiveTime`
compares (for the well-formed times the program manipulates). -/
def timeKey (dt : DateTime) : Nat :=
  (dt.hour * 60 + dt.minute) * 60 + dt.second

/-- `chrono` order on `NaiveDateTime`: by date, then by time of day. -/
def ltB (a b : DateTime) : Bool :=
  a.date < b.date || (a.date == b.date && a.timeKey < b.timeKey)

/-- Non-strict `chrono` order on `NaiveDateTime`. -/
def leB (a b : DateTime) : Bool :=
  a.date < b.date || (a.date == b.date && a.timeKey ≤ b.timeKey)

/-- `chrono` `checked_add_days` (total in the unbounded model). -/
def addDays (dt : DateTime) (n : Nat) : DateTime :=
  { dt with date := dt.date + n }

/-- Well-formed time of day. -/
def wfB (dt : DateTime) : Bool :=
  dt.hour ≤ 23 && dt.minute ≤ 59 && dt.second ≤ 59

end DateTime

end Backup

namespace Backup

/-- Rust `DateTimeMatch` (config/src/interval/date_time_match.rs). -/
inductive DateTimeMatch where
  | ok
  | timeNotMatched
  | dateNotMatched
  deriving DecidableEq, Repr

/-- Rust `Interval` (config/src/interval.rs): six specifiers over the
canonical axes minutes `[0,59]`, hours `[0,23]`, weekdays `[0,6]`
(Monday = 0), monthdays `[0,31]` (zero-based), weeks `[0,52]` (zero-based
ISO week), months `[0,11]` (January = 0).  The `Weekday`/`Month` ordinals
are embedded through their `u32` images. -/
structure Interval where
  minutes : Specifier
  hours : Specifier
  weekdays : Specifier
  monthdays : Specifier
  weeks : Specifier
  months : Specifier
  deriving DecidableEq, Repr

namespace Interval

/-- Rust `Interval::validate`: each specifier's range must equal its
canonical range exactly (`Ok` embedded as `true`). -/
def validateB (I : Interval) : Bool :=
  I.minutes.min == 0 && I.minutes.max == 59 &&
  (I.hours.min == 0 && I.hours.max == 23) &&
  (I.weekdays.min == 0 && I.weekdays.max == 6) &&
  (I.monthdays.min == 0 && I.monthdays.max == 31) &&
  (I.weeks.min == 0 && I.weeks.max == 52) &&
  (I.months.min == 0 && I.months.max == 11)

/-- Rust `Interval::matches_date`.  `Weekday::from` reduces its argument
mod 7, and `num_days_from_monday` is already in `[0,6]`, so the weekday
argument is `dayOfWeekMon0` directly. -/
def matchesDate (I : Interval) (z : Int) : Bool :=
  let weekdayMatch := I.weekdays.matchesB (dayOfWeekMon0 z)
  let monthdayMatch := I.monthdays.matchesB (day0 z)
  let dayMatch :=
    if I.weekdays.kind != .allK && I.monthdays.kind != .allK then
      weekdayMatch || monthdayMatch
    else
      weekdayMatch && monthdayMatch
  let weekMatch := I.weeks.matchesB (isoWeek0 z)
  let monthMatch := I.months.matchesB (month0 z)
  dayMatch && weekMatch && monthMatch

/-- Rust `Interval::matches_time` (applied to the hour and minute of a
time of day). -/
def matchesTime (I : Interval) (hour minute : Nat) : Bool :=
  I.minutes.matchesB minute && I.hours.matchesB hour

/-- Rust `Interval::matches_datetime`. -/
def matchesDatetime (I : Interval) (dt : DateTime) : DateTimeMatch :=
  if !I.matchesDate dt.date then .dateNotMatched
  else if !I.matchesTime dt.hour dt.minute then .timeNotMatched
  else .ok

/-- Rust `Interval::cyclic_next_daytime`: next matching time of day,
cycling within one day; `NaiveTime::from_hms_opt(h, m, 0)` fails on an
out-of-range hour or minute. -/
def cyclicNextDaytime (I : Interval) (hour minute : Nat) : Option (Nat × Nat) :=
  let hourMatches := I.hours.matchesB hour
  match (if hourMatches then I.minutes.cyclicNext minute else I.minutes.firstMatch) with
  | none => none
  | some nextMinute =>
    match (if hourMatches && nextMinute > minute then some hour
           else I.hours.cyclicNext hour) with
    | none => none
    | some nextHour =>
      if nextHour ≤ 23 && nextMinute ≤ 59 then some (nextHour, nextMinute) else none

/-- The day-by-day loop inside `Interval::next_datetime`: starting at `z`,
try `fuel` consecutive dates, returning the first one `matches_date`
accepts. -/
def searchDate (I : Interval) : Int → Nat → Option Int
  | _, 0 => none
  | z, fuel + 1 => if I.matchesDate z then some z else searchDate I (z + 1) fuel

/-- Rust `Interval::next_datetime`.  The same-day test compares the
candidate `NaiveTime` (seconds `0`) against `datetime.time()` including its
seconds, and the day-by-day search advances up to 365 days starting at the
following day. -/
def nextDatetime (I : Interval) (dt : DateTime) : Option DateTime :=
  let dateMatches := I.matchesDate dt.date
  match (if dateMatches then I.cyclicNextDaytime dt.hour dt.minute
         else I.cyclicNextDaytime 23 59) with
  | none => none
  | some (nh, nm) =>
    if dateMatches && (nh * 60 + nm) * 60 > dt.timeKey then
      some ⟨dt.date, nh, nm, 0⟩
    else
      match searchDate I (dt.date + 1) 365 with
      | none => none
      | some d => some ⟨d, nh, nm, 0⟩

end Interval

/-- The canonical all-pass interval produced by `IntervalBuilder::default()`. -/
def defaultInterval : Interval :=
  ⟨⟨0, 59, .allK⟩, ⟨0, 23, .allK⟩, ⟨0, 6, .allK⟩, ⟨0, 31, .allK⟩,
   ⟨0, 52, .allK⟩, ⟨0, 11, .allK⟩⟩

end Backup

namespace Backup

namespace Specifier

theorem cyclicSpec_some {s : Specifier} {x y : Nat} (h : CyclicSpec s x)
    (he : s.cyclicNext x = some y) :
    s.matchesB y = true ∧
    (x < y → ∀ z, x < z → z < y → s.matchesB z = false) ∧
    (y ≤ x → (∀ z, x < z → s.matchesB z = false) ∧ (∀ z, z < y → s.matchesB z = false)) := by
  unfold CyclicSpec at h
  rw [he] at h
  exact h

theorem cyclicSpec_isNone {s : Specifier} {x : Nat} (h : CyclicSpec s x)
    (he : s.cyclicNext x = none) : ∀ z, s.matchesB z = false := by
  unfold CyclicSpec at h
  rw [he] at h
  exact h

end Specifier

end Backup

namespace Backup

namespace Interval

section DaytimeLemmas

variable {I : Interval}

theorem cyclicNextDaytime_none_spec
    (h59 : I.minutes.max = 59) (g0 : I.hours.min = 0) (g23 : I.hours.max = 23)
    (hmn : I.minutes.normalizedB = true) (hmo : I.minutes.noOverflowB = true)
    (hhn : I.hours.normalizedB = true) (hho : I.hours.noOverflowB = true)
    (h0 : I.minutes.min = 0)
    {hour minute : Nat} (hh : hour ≤ 23) (hm : minute ≤ 59)
    (he : I.cyclicNextDaytime hour minute = none) :
    ∀ h' m', I.matchesTime h' m' = false := by
  have hmu : I.minutes.max < u32M := by rw [h59]; decide
  have hhu : I.hours.max < u32M := by rw [g23]; decide
  have hmSpec : ∀ x, x ≤ 59 → Specifier.CyclicSpec I.minutes x := fun x hx =>
    Specifier.cyclicNext_correct I.minutes (by omega) hmu hmn hmo x (by omega) (by omega)
  have hhSpec : ∀ x, x ≤ 23 → Specifier.CyclicSpec I.hours x := fun x hx =>
    Specifier.cyclicNext_correct I.hours (by omega) hhu hhn hho x (by omega) (by omega)
  have hminutesEmpty : (∀ z, I.minutes.matchesB z = false) →
      ∀ h' m', I.matchesTime h' m' = false := by
    intro h h' m'
    simp [matchesTime, h m']
  have hhoursEmpty : (∀ z, I.hours.matchesB z = false) →
      ∀ h' m', I.matchesTime h' m' = false := by
    intro h h' m'
    simp [matchesTime, h h']
  unfold cyclicNextDaytime at he
  cases hM : I.hours.matchesB hour with
  | true =>
    rw [hM] at he
    cases hcm : I.minutes.cyclicNext minute with
    | none =>
      exact hminutesEmpty (Specifier.cyclicSpec_isNone (hmSpec minute hm) hcm)
    | some nm =>
      rw [hcm] at he
      have hnm59 : nm ≤ 59 := by
        have := Specifier.inRange_of_matchesB
          (Specifier.cyclicSpec_some (hmSpec minute hm) hcm).1
        omega
      by_cases hgt : nm > minute
      · simp [hgt, hh, hnm59] at he
      · simp only [if_true] at he
        have hgt' : decide (nm > minute) = false := by simp [hgt]
        simp only [hgt', Bool.true_and, Bool.false_eq_true, if_false] at he
        cases hch : I.hours.cyclicNext hour with
        | none =>
          exact hhoursEmpty (Specifier.cyclicSpec_isNone (hhSpec hour hh) hch)
        | some nh =>
          rw [hch] at he
          have hnh23 : nh ≤ 23 := by
            have := Specifier.inRange_of_matchesB
              (Specifier.cyclicSpec_some (hhSpec hour hh) hch).1
            omega
          simp [hnh23, hnm59] at he
  | false =>
    rw [hM] at he
    cases hcm : I.minutes.firstMatch with
    | none =>
      exact hminutesEmpty (Specifier.cyclicSpec_isNone (hmSpec 59 (by omega))
        (by rw [← h59]; exact hcm))
    | some nm =>
      rw [hcm] at he
      have hsm := Specifier.cyclicSpec_some (hmSpec 59 (by omega)) (by rw [← h59]; exact hcm)
      have hnm59 : nm ≤ 59 := by
        have := Specifier.inRange_of_matchesB hsm.1
        omega
      simp only [Bool.false_eq_true, if_false, Bool.false_and] at he
      cases hch : I.hours.cyclicNext hour with
      | none =>
        exact hhoursEmpty (Specifier.cyclicSpec_isNone (hhSpec hour hh) hch)
      | some nh =>
        rw [hch] at he
        have hnh23 : nh ≤ 23 := by
          have := Specifier.inRange_of_matchesB
            (Specifier.cyclicSpec_some (hhSpec hour hh) hch).1
          omega
        simp [hnh23, hnm59] at he


theorem cyclicNextDaytime_some_spec
    (h59 : I.minutes.max = 59) (g0 : I.hours.min = 0) (g23 : I.hours.max = 23)
    (hmn : I.minutes.normalizedB = true) (hmo : I.minutes.noOverflowB = true)
    (hhn : I.hours.normalizedB = true) (hho : I.hours.noOverflowB = true)
    (h0 : I.minutes.min = 0)
    {hour minute nh nm : Nat} (hh : hour ≤ 23) (hm : minute ≤ 59)
    (he : I.cyclicNextDaytime hour minute = some (nh, nm)) :
    nh ≤ 23 ∧ nm ≤ 59 ∧ I.matchesTime nh nm = true ∧
    (hour * 60 + minute < nh * 60 + nm →
      ∀ h' m', I.matchesTime h' m' = true → hour * 60 + minute < h' * 60 + m' →
        nh * 60 + nm ≤ h' * 60 + m') ∧
    (nh * 60 + nm ≤ hour * 60 + minute →
      (∀ h' m', I.matchesTime h' m' = true → h' * 60 + m' ≤ hour * 60 + minute) ∧
      (∀ h' m', I.matchesTime h' m' = true → nh * 60 + nm ≤ h' * 60 + m')) := by
  have hmu : I.minutes.max < u32M := by rw [h59]; decide
  have hhu : I.hours.max < u32M := by rw [g23]; decide
  have hmSpec : ∀ x, x ≤ 59 → Specifier.CyclicSpec I.minutes x := fun x hx =>
    Specifier.cyclicNext_correct I.minutes (by omega) hmu hmn hmo x (by omega) (by omega)
  have hhSpec : ∀ x, x ≤ 23 → Specifier.CyclicSpec I.hours x := fun x hx =>
    Specifier.cyclicNext_correct I.hours (by omega) hhu hhn hho x (by omega) (by omega)
  have hT : ∀ h' m', I.matchesTime h' m' = true →
      I.minutes.matchesB m' = true ∧ I.hours.matchesB h' = true ∧ m' ≤ 59 ∧ h' ≤ 23 := by
    intro h' m' hmt
    simp only [matchesTime, Bool.and_eq_true] at hmt
    have b1 := Specifier.inRange_of_matchesB hmt.1
    have b2 := Specifier.inRange_of_matchesB hmt.2
    exact ⟨hmt.1, hmt.2, by omega, by omega⟩
  unfold cyclicNextDaytime at he
  cases hM : I.hours.matchesB hour with
  | true =>
    rw [hM] at he
    cases hcm : I.minutes.cyclicNext minute with
    | none =>
      rw [hcm] at he
      simp at he
    | some nmv =>
      rw [hcm] at he
      obtain ⟨hA, hB, hC⟩ := Specifier.cyclicSpec_some (hmSpec minute hm) hcm
      have hnm59 : nmv ≤ 59 := by
        have := Specifier.inRange_of_matchesB hA
        omega
      by_cases hgt : nmv > minute
      · simp [hgt, hh, hnm59] at he
        obtain ⟨rfl, rfl⟩ := he
        refine ⟨hh, hnm59, by simp [matchesTime, hA, hM], ?_, ?_⟩
        · intro _ h' m' hm' hk
          obtain ⟨hm'1, hm'2, hm'3, hm'4⟩ := hT h' m' hm'
          rcases Nat.lt_trichotomy h' hour with hc | hc | hc
          · omega
          · subst hc
            by_cases hv : m' < nmv
            · have := hB hgt m' (by omega) hv
              rw [this] at hm'1
              exact absurd hm'1 (by simp)
            · omega
          · omega
        · intro hle
          omega
      · have hgt' : decide (nmv > minute) = false := by simp [hgt]
        simp only [if_true, hgt', Bool.true_and, Bool.false_eq_true, if_false] at he
        obtain ⟨habove, hbelow⟩ := hC (by omega)
        cases hch : I.hours.cyclicNext hour with
        | none =>
          rw [hch] at he
          simp at he
        | some nhv =>
          rw [hch] at he
          obtain ⟨hHA, hHB, hHC⟩ := Specifier.cyclicSpec_some (hhSpec hour hh) hch
          have hnh23 : nhv ≤ 23 := by
            have := Specifier.inRange_of_matchesB hHA
            omega
          simp [hnh23, hnm59] at he
          obtain ⟨rfl, rfl⟩ := he
          refine ⟨hnh23, hnm59, by simp [matchesTime, hA, hHA], ?_, ?_⟩
          · intro hkey h' m' hm' hk
            obtain ⟨hm'1, hm'2, hm'3, hm'4⟩ := hT h' m' hm'
            have hcomp : hour < nhv := by omega
            rcases Nat.lt_trichotomy h' hour with hc | hc | hc
            · omega
            · subst hc
              have := habove m' (by omega)
              rw [this] at hm'1
              exact absurd hm'1 (by simp)
            · rcases Nat.lt_trichotomy h' nhv with hd | hd | hd
              · have := hHB hcomp h' (by omega) hd
                rw [this] at hm'2
                exact absurd hm'2 (by simp)
              · subst hd
                by_cases hv : m' < nmv
                · have := hbelow m' hv
                  rw [this] at hm'1
                  exact absurd hm'1 (by simp)
                · omega
              · omega
          · intro _
            constructor
            · intro h' m' hm'
              obtain ⟨hm'1, hm'2, hm'3, hm'4⟩ := hT h' m' hm'
              rcases Nat.lt_trichotomy h' hour with hc | hc | hc
              · omega
              · subst hc
                by_cases hv : m' > minute
                · have := habove m' hv
                  rw [this] at hm'1
                  exact absurd hm'1 (by simp)
                · omega
              · have := hHC (by omega)
                have := this.1 h' (by omega)
                rw [this] at hm'2
                exact absurd hm'2 (by simp)
            · intro h' m' hm'
              obtain ⟨hm'1, hm'2, hm'3, hm'4⟩ := hT h' m' hm'
              by_cases hd : h' < nhv
              · have := (hHC (by
                  rcases Nat.lt_or_ge hour nhv with hx | hx
                  · omega
                  · omega)).2 h' hd
                rw [this] at hm'2
                exact absurd hm'2 (by simp)
              · rcases Nat.lt_or_ge nhv h' with hd' | hd'
                · omega
                · have hdd : h' = nhv := by omega
                  subst hdd
                  by_cases hv : m' < nmv
                  · have := hbelow m' hv
                    rw [this] at hm'1
                    exact absurd hm'1 (by simp)
                  · omega
  | false =>
    rw [hM] at he
    cases hcm : I.minutes.firstMatch with
    | none =>
      rw [hcm] at he
      simp at he
    | some nmv =>
      rw [hcm] at he
      obtain ⟨hA, hB59, hC59⟩ :=
        Specifier.cyclicSpec_some (hmSpec 59 (by omega)) (by rw [← h59]; exact hcm)
      have hnm59 : nmv ≤ 59 := by
        have := Specifier.inRange_of_matchesB hA
        omega
      obtain ⟨habove59, hbelow⟩ := hC59 (by omega)
      simp only [Bool.false_eq_true, if_false, Bool.false_and] at he
      cases hch : I.hours.cyclicNext hour with
      | none =>
        rw [hch] at he
        simp at he
      | some nhv =>
        rw [hch] at he
        obtain ⟨hHA, hHB, hHC⟩ := Specifier.cyclicSpec_some (hhSpec hour hh) hch
        have hnh23 : nhv ≤ 23 := by
          have := Specifier.inRange_of_matchesB hHA
          omega
        simp [hnh23, hnm59] at he
        obtain ⟨rfl, rfl⟩ := he
        have hne : nhv ≠ hour := by
          intro hcontra
          rw [hcontra] at hHA
          rw [hM] at hHA
          exact absurd hHA (by simp)
        have hminuteEmptyAbove : ∀ m', I.minutes.matchesB m' = true → nmv ≤ m' := by
          intro m' hm'
          by_cases hv : m' < nmv
          · have := hbelow m' hv
            rw [this] at hm'
            exact absurd hm' (by simp)
          · omega
        refine ⟨hnh23, hnm59, by simp [matchesTime, hA, hHA], ?_, ?_⟩
        · intro hkey h' m' hm' hk
          obtain ⟨hm'1, hm'2, hm'3, hm'4⟩ := hT h' m' hm'
          have hcomp : hour < nhv := by omega
          rcases Nat.lt_trichotomy h' hour with hc | hc | hc
          · omega
          · subst hc
            rw [hM] at hm'2
            exact absurd hm'2 (by simp)
          · rcases Nat.lt_trichotomy h' nhv with hd | hd | hd
            · have := hHB hcomp h' (by omega) hd
              rw [this] at hm'2
              exact absurd hm'2 (by simp)
            · subst hd
              have := hminuteEmptyAbove m' hm'1
              omega
            · omega
        · intro hkey
          have hcomp : nhv < hour := by omega
          constructor
          · intro h' m' hm'
            obtain ⟨hm'1, hm'2, hm'3, hm'4⟩ := hT h' m' hm'
            rcases Nat.lt_trichotomy h' hour with hc | hc | hc
            · omega
            · subst hc
              rw [hM] at hm'2
              exact absurd hm'2 (by simp)
            · have := (hHC (by omega)).1 h' (by omega)
              rw [this] at hm'2
              exact absurd hm'2 (by simp)
          · intro h' m' hm'
            obtain ⟨hm'1, hm'2, hm'3, hm'4⟩ := hT h' m' hm'
            by_cases hd : h' < nhv
            · have := (hHC (by omega)).2 h' hd
              rw [this] at hm'2
              exact absurd hm'2 (by simp)
            · rcases Nat.lt_or_ge nhv h' with hd' | hd'
              · omega
              · have hdd : h' = nhv := by omega
                subst hdd
                have := hminuteEmptyAbove m' hm'1
                omega


theorem matchesDatetime_ok_iff (v : DateTime) :
    I.matchesDatetime v = .ok ↔
      (I.matchesDate v.date = true ∧ I.matchesTime v.hour v.minute = true) := by
  unfold matchesDatetime
  cases h1 : I.matchesDate v.date <;> cases h2 : I.matchesTime v.hour v.minute <;> simp

theorem searchDate_spec (fuel : Nat) : ∀ d0 : Int,
    (∀ d, I.searchDate d0 fuel = some d →
      d0 ≤ d ∧ d < d0 + fuel ∧ I.matchesDate d = true ∧
        ∀ e, d0 ≤ e → e < d → I.matchesDate e = false) ∧
    (I.searchDate d0 fuel = none →
      ∀ e, d0 ≤ e → e < d0 + fuel → I.matchesDate e = false) := by
  induction fuel with
  | zero =>
    intro d0
    constructor
    · intro d hd
      simp [searchDate] at hd
    · intro _ e he1 he2
      omega
  | succ fuel ih =>
    intro d0
    constructor
    · intro d hd
      unfold searchDate at hd
      by_cases hmd : I.matchesDate d0 = true
      · rw [if_pos hmd] at hd
        injection hd with hd
        subst hd
        exact ⟨le_refl _, by omega, hmd, fun e he1 he2 => by omega⟩
      · rw [if_neg hmd] at hd
        obtain ⟨k1, k2, k3, k4⟩ := (ih (d0 + 1)).1 d hd
        refine ⟨by omega, by omega, k3, ?_⟩
        intro e he1 he2
        by_cases hed : e = d0
        · subst hed
          rcases Bool.dichotomy (I.matchesDate e) with h | h
          · exact h
          · exact absurd h hmd
        · exact k4 e (by omega) he2
    · intro hd e he1 he2
      unfold searchDate at hd
      by_cases hmd : I.matchesDate d0 = true
      · rw [if_pos hmd] at hd
        exact absurd hd (by simp)
      · rw [if_neg hmd] at hd
        by_cases hed : e = d0
        · subst hed
          rcases Bool.dichotomy (I.matchesDate e) with h | h
          · exact h
          · exact absurd h hmd
        · exact (ih (d0 + 1)).2 hd e (by omega) (by omega)


theorem ltB_true_iff (a b : DateTime) :
    DateTime.ltB a b = true ↔
      (a.date < b.date ∨ (a.date = b.date ∧ a.timeKey < b.timeKey)) := by
  simp [DateTime.ltB]

theorem leB_true_iff (a b : DateTime) :
    DateTime.leB a b = true ↔
      (a.date < b.date ∨ (a.date = b.date ∧ a.timeKey ≤ b.timeKey)) := by
  simp [DateTime.leB]

theorem nextDatetime_none_spec
    (h0 : I.minutes.min = 0) (h59 : I.minutes.max = 59)
    (g0 : I.hours.min = 0) (g23 : I.hours.max = 23)
    (hmn : I.minutes.normalizedB = true) (hmo : I.minutes.noOverflowB = true)
    (hhn : I.hours.normalizedB = true) (hho : I.hours.noOverflowB = true)
    {dt : DateTime} (hw : dt.wfB = true)
    (he : I.nextDatetime dt = none) :
    ∀ v : DateTime, v.second = 0 → DateTime.ltB dt v = true →
      v.date ≤ dt.date + 365 → I.matchesDatetime v ≠ .ok := by
  simp only [DateTime.wfB, Bool.and_eq_true, decide_eq_true_eq] at hw
  obtain ⟨⟨hwh, hwm⟩, hws⟩ := hw
  unfold nextDatetime at he
  cases hdm : I.matchesDate dt.date with
  | true =>
    rw [hdm] at he
    cases hcd : I.cyclicNextDaytime dt.hour dt.minute with
    | none =>
      intro v _ _ _ hok
      rw [matchesDatetime_ok_iff] at hok
      have hnone := cyclicNextDaytime_none_spec h59 g0 g23 hmn hmo hhn hho h0 hwh hwm hcd
      rw [hnone v.hour v.minute] at hok
      exact absurd hok.2 (by simp)
    | some p =>
      obtain ⟨nh, nm⟩ := p
      rw [hcd] at he
      have big := cyclicNextDaytime_some_spec h59 g0 g23 hmn hmo hhn hho h0 hwh hwm hcd
      by_cases hsame : (nh * 60 + nm) * 60 > dt.timeKey
      · simp [hsame] at he
      · have hsame' : decide ((nh * 60 + nm) * 60 > dt.timeKey) = false := by simp [hsame]
        simp only [hsame', Bool.and_false, Bool.true_and, Bool.false_eq_true, if_false] at he
        cases hsd : I.searchDate (dt.date + 1) 365 with
        | none =>
          intro v hv0 hlt hwin hok
          rw [matchesDatetime_ok_iff] at hok
          rw [ltB_true_iff] at hlt
          by_cases hvd : v.date = dt.date
          · have hwrapKey : nh * 60 + nm ≤ dt.hour * 60 + dt.minute := by
              simp only [DateTime.timeKey, Nat.not_lt] at hsame
              omega
            obtain ⟨_, _, _, _, hwrap⟩ := big
            obtain ⟨habove, _⟩ := hwrap hwrapKey
            have hvk := habove v.hour v.minute hok.2
            rcases hlt with h | h
            · omega
            · have := h.2
              simp only [DateTime.timeKey, hv0] at this
              omega
          · have hvgt : dt.date < v.date := by
              rcases hlt with h | h
              · exact h
              · exact absurd h.1 (by omega)
            have := (searchDate_spec 365 (dt.date + 1)).2 hsd v.date (by omega) (by omega)
            rw [this] at hok
            exact absurd hok.1 (by simp)
        | some d =>
          rw [hsd] at he
          simp [hsame] at he
  | false =>
    rw [hdm] at he
    cases hcd : I.cyclicNextDaytime 23 59 with
    | none =>
      intro v _ _ _ hok
      rw [matchesDatetime_ok_iff] at hok
      have hnone := cyclicNextDaytime_none_spec h59 g0 g23 hmn hmo hhn hho h0
        (le_refl 23) (le_refl 59) hcd
      rw [hnone v.hour v.minute] at hok
      exact absurd hok.2 (by simp)
    | some p =>
      obtain ⟨nh, nm⟩ := p
      rw [hcd] at he
      simp only [Bool.false_and, Bool.false_eq_true, if_false] at he
      cases hsd : I.searchDate (dt.date + 1) 365 with
      | none =>
        intro v hv0 hlt hwin hok
        rw [matchesDatetime_ok_iff] at hok
        rw [ltB_true_iff] at hlt
        by_cases hvd : v.date = dt.date
        · rw [hvd] at hok
          rw [hdm] at hok
          exact absurd hok.1 (by simp)
        · have hvgt : dt.date < v.date := by
            rcases hlt with h | h
            · exact h
            · exact absurd h.1 (by omega)
          have := (searchDate_spec 365 (dt.date + 1)).2 hsd v.date (by omega) (by omega)
          rw [this] at hok
          exact absurd hok.1 (by simp)
      | some d =>
        rw [hsd] at he
        simp at he


theorem nextDatetime_some_spec
    (h0 : I.minutes.min = 0) (h59 : I.minutes.max = 59)
    (g0 : I.hours.min = 0) (g23 : I.hours.max = 23)
    (hmn : I.minutes.normalizedB = true) (hmo : I.minutes.noOverflowB = true)
    (hhn : I.hours.normalizedB = true) (hho : I.hours.noOverflowB = true)
    {dt u : DateTime} (hw : dt.wfB = true)
    (he : I.nextDatetime dt = some u) :
    u.second = 0 ∧ u.wfB = true ∧ DateTime.ltB dt u = true ∧
    u.date ≤ dt.date + 365 ∧ I.matchesDatetime u = .ok ∧
    ∀ v : DateTime, v.second = 0 → DateTime.ltB dt v = true →
      v.date ≤ dt.date + 365 → I.matchesDatetime v = .ok → DateTime.leB u v = true := by
  simp only [DateTime.wfB, Bool.and_eq_true, decide_eq_true_eq] at hw
  obtain ⟨⟨hwh, hwm⟩, hws⟩ := hw
  obtain ⟨ud, uh, um, us⟩ := u
  unfold nextDatetime at he
  cases hdm : I.matchesDate dt.date with
  | true =>
    rw [hdm] at he
    cases hcd : I.cyclicNextDaytime dt.hour dt.minute with
    | none =>
      rw [hcd] at he
      simp at he
    | some p =>
      obtain ⟨nh, nm⟩ := p
      rw [hcd] at he
      have big := cyclicNextDaytime_some_spec h59 g0 g23 hmn hmo hhn hho h0 hwh hwm hcd
      obtain ⟨bh, bm, bt, bmin, bwrap⟩ := big
      by_cases hsame : (nh * 60 + nm) * 60 > dt.timeKey
      · simp [hsame] at he
        obtain ⟨rfl, rfl, rfl, rfl⟩ := he
        dsimp only
        have hkey : dt.hour * 60 + dt.minute < nh * 60 + nm := by
          simp only [DateTime.timeKey] at hsame
          omega
        refine ⟨rfl, by simp [DateTime.wfB]; omega, ?_, by omega, ?_, ?_⟩
        · rw [ltB_true_iff]
          right
          refine ⟨rfl, ?_⟩
          simp only [DateTime.timeKey]
          omega
        · rw [matchesDatetime_ok_iff]
          exact ⟨hdm, bt⟩
        · intro v hv0 hlt hwin hok
          rw [matchesDatetime_ok_iff] at hok
          rw [ltB_true_iff] at hlt
          rw [leB_true_iff]
          dsimp only
          by_cases hvd : v.date = dt.date
          · right
            refine ⟨by omega, ?_⟩
            have hvk : dt.hour * 60 + dt.minute < v.hour * 60 + v.minute := by
              rcases hlt with h | h
              · omega
              · have := h.2
                simp only [DateTime.timeKey, hv0] at this
                omega
            have := bmin hkey v.hour v.minute hok.2 hvk
            simp only [DateTime.timeKey, hv0]
            omega
          · left
            rcases hlt with h | h
            · omega
            · exact absurd h.1 (by omega)
      · have hwrapKey : nh * 60 + nm ≤ dt.hour * 60 + dt.minute := by
          simp only [DateTime.timeKey, Nat.not_lt] at hsame
          omega
        obtain ⟨habove, hglob⟩ := bwrap hwrapKey
        cases hsd : I.searchDate (dt.date + 1) 365 with
        | none =>
          rw [hsd] at he
          simp [hsame] at he
        | some d =>
          rw [hsd] at he
          simp [hsame] at he
          obtain ⟨rfl, rfl, rfl, rfl⟩ := he
          dsimp only
          obtain ⟨k1, k2, k3, k4⟩ := (searchDate_spec 365 (dt.date + 1)).1 d hsd
          refine ⟨rfl, by simp [DateTime.wfB]; omega, ?_, by omega, ?_, ?_⟩
          · rw [ltB_true_iff]
            dsimp only
            left
            omega
          · rw [matchesDatetime_ok_iff]
            exact ⟨k3, bt⟩
          · intro v hv0 hlt hwin hok
            rw [matchesDatetime_ok_iff] at hok
            rw [ltB_true_iff] at hlt
            rw [leB_true_iff]
            dsimp only
            by_cases hvd : v.date = dt.date
            · exfalso
              have hvk := habove v.hour v.minute hok.2
              rcases hlt with h | h
              · omega
              · have := h.2
                simp only [DateTime.timeKey, hv0] at this
                omega
            · have hvgt : dt.date < v.date := by
                rcases hlt with h | h
                · exact h
                · exact absurd h.1 (by omega)
              rcases lt_trichotomy v.date d with hc | hc | hc
              · exfalso
                have := k4 v.date (by omega) hc
                rw [this] at hok
                exact absurd hok.1 (by simp)
              · right
                refine ⟨by omega, ?_⟩
                have := hglob v.hour v.minute hok.2
                simp only [DateTime.timeKey, hv0]
                omega
              · left
                omega
  | false =>
    rw [hdm] at he
    cases hcd : I.cyclicNextDaytime 23 59 with
    | none =>
      rw [hcd] at he
      simp at he
    | some p =>
      obtain ⟨nh, nm⟩ := p
      rw [hcd] at he
      have big := cyclicNextDaytime_some_spec h59 g0 g23 hmn hmo hhn hho h0
        (le_refl 23) (le_refl 59) hcd
      obtain ⟨bh, bm, bt, bmin, bwrap⟩ := big
      obtain ⟨habove, hglob⟩ := bwrap (by omega)
      cases hsd : I.searchDate (dt.date + 1) 365 with
      | none =>
        rw [hsd] at he
        simp at he
      | some d =>
        rw [hsd] at he
        simp at he
        obtain ⟨rfl, rfl, rfl, rfl⟩ := he
        dsimp only
        obtain ⟨k1, k2, k3, k4⟩ := (searchDate_spec 365 (dt.date + 1)).1 d hsd
        refine ⟨rfl, by simp [DateTime.wfB]; omega, ?_, by omega, ?_, ?_⟩
        · rw [ltB_true_iff]
          dsimp only
          left
          omega
        · rw [matchesDatetime_ok_iff]
          exact ⟨k3, bt⟩
        · intro v hv0 hlt hwin hok
          rw [matchesDatetime_ok_iff] at hok
          rw [ltB_true_iff] at hlt
          rw [leB_true_iff]
          dsimp only
          by_cases hvd : v.date = dt.date
          · exfalso
            rw [hvd] at hok
            rw [hdm] at hok
            exact absurd hok.1 (by simp)
          · have hvgt : dt.date < v.date := by
              rcases hlt with h | h
              · exact h
              · exact absurd h.1 (by omega)
            rcases lt_trichotomy v.date d with hc | hc | hc
            · exfalso
              have := k4 v.date (by omega) hc
              rw [this] at hok
              exact absurd hok.1 (by simp)
            · right
              refine ⟨by omega, ?_⟩
              have := hglob v.hour v.minute hok.2
              simp only [DateTime.timeKey, hv0]
              omega
            · left
              omega

end DaytimeLemmas

end Interval

end Backup

namespace Backup

/-- C2 (amended): for every valid `Interval` whose minutes and hours
specifiers additionally carry the construction normalisation (list kinds
sorted, deduplicated, in range) and whose kind parameters satisfy the
no-`u32`-overflow bounds of C4, and for every datetime `dt`,
`next_datetime(dt)` returns the smallest matching instant strictly greater
than `dt` within the search window (same day plus the following 365 days),
with seconds component zero, and returns `none` exactly when no match
exists in that window; whenever it returns some `u`, `u > dt` and
`matches_datetime(u) = Ok`.  Without the overflow bounds the claim is
false, see the counterexample. -/
theorem claim_C2_next_datetime (I : Interval)
    (hv : I.validateB = true)
    (hmn : I.minutes.normalizedB = true) (hmo : I.minutes.noOverflowB = true)
    (hhn : I.hours.normalizedB = true) (hho : I.hours.noOverflowB = true)
    (dt : DateTime) (hw : dt.wfB = true) :
    match I.nextDatetime dt with
    | some u =>
        u.second = 0 ∧ u.wfB = true ∧ DateTime.ltB dt u = true ∧
        u.date ≤ dt.date + 365 ∧ I.matchesDatetime u = .ok ∧
        ∀ v : DateTime, v.second = 0 → DateTime.ltB dt v = true →
          v.date ≤ dt.date + 365 → I.matchesDatetime v = .ok →
            DateTime.leB u v = true
    | none =>
        ∀ v : DateTime, v.second = 0 → DateTime.ltB dt v = true →
          v.date ≤ dt.date + 365 → I.matchesDatetime v ≠ .ok := by
  simp only [Interval.validateB, Bool.and_eq_true, beq_iff_eq] at hv
  obtain ⟨⟨⟨⟨⟨⟨h0, h59⟩, g0, g23⟩, _⟩, _⟩, _⟩, _⟩ := hv
  cases heq : I.nextDatetime dt with
  | none =>
    exact Interval.nextDatetime_none_spec h0 h59 g0 g23 hmn hmo hhn hho hw heq
  | some u =>
    exact Interval.nextDatetime_some_spec h0 h59 g0 g23 hmn hmo hhn hho hw heq

/-- The interval of the C2 counterexample: canonical ranges (so `validate`
accepts it), minutes `EveryNth(4294967295, 59)`, every other axis `All`. -/
def cexInterval : Interval :=
  ⟨⟨0, 59, .everyNth 4294967295 59⟩, ⟨0, 23, .allK⟩, ⟨0, 6, .allK⟩,
   ⟨0, 31, .allK⟩, ⟨0, 52, .allK⟩, ⟨0, 11, .allK⟩⟩

/-- C2 counterexample: the interval above passes `validate`, its minutes
specifier matches only minute 59, yet at `2024-01-01 10:59:00` (day 19723)
`next_datetime` answers `2024-01-01 11:58:00` — the wrapping `u32`
multiply-add in the `EveryNth` arm of `cyclic_next` produces the
non-matching minute 58 — so "if `next_datetime` returns `u` then
`matches_datetime(u) = Ok`" is false as stated for valid intervals. -/
theorem claim_C2_counterexample :
    cexInterval.validateB = true ∧
    (⟨19723, 10, 59, 0⟩ : DateTime).wfB = true ∧
    cexInterval.nextDatetime ⟨19723, 10, 59, 0⟩ = some ⟨19723, 11, 58, 0⟩ ∧
    cexInterval.matchesDatetime ⟨19723, 11, 58, 0⟩ ≠ DateTimeMatch.ok := by
  exact ⟨by decide, by decide, by decide, by decide⟩

/-- C2 witness: the amended theorem applied to the default all-pass
interval at `2024-01-01 10:30:00`; the next match is one minute later. -/
theorem claim_C2_witness :
    DateTime.ltB ⟨19723, 10, 30, 0⟩ ⟨19723, 10, 31, 0⟩ = true ∧
    defaultInterval.matchesDatetime ⟨19723, 10, 31, 0⟩ = DateTimeMatch.ok := by
  have h := claim_C2_next_datetime defaultInterval (by decide) (by decide)
    (by decide) (by decide) (by decide) ⟨19723, 10, 30, 0⟩ (by decide)
  rw [show defaultInterval.nextDatetime ⟨19723, 10, 30, 0⟩ =
    some ⟨19723, 10, 31, 0⟩ from by decide] at h
  exact ⟨h.2.2.1, h.2.2.2.2.1⟩

end Backup

namespace Backup

/-- C3: the day-combination rule of `matches_date` — OR between weekday and
monthday when both kinds are constrained (not `All`), AND otherwise, with
the week-of-year and month tests always AND-combined. -/
theorem claim_C3_matches_date (I : Interval) (_hv : I.validateB = true) (z : Int) :
    I.matchesDate z = true ↔
      ((((I.weekdays.kind ≠ .allK ∧ I.monthdays.kind ≠ .allK) ∧
          (I.weekdays.matchesB (dayOfWeekMon0 z) = true ∨
            I.monthdays.matchesB (day0 z) = true)) ∨
        (¬(I.weekdays.kind ≠ .allK ∧ I.monthdays.kind ≠ .allK) ∧
          (I.weekdays.matchesB (dayOfWeekMon0 z) = true ∧
            I.monthdays.matchesB (day0 z) = true))) ∧
       I.weeks.matchesB (isoWeek0 z) = true ∧
       I.months.matchesB (month0 z) = true) := by
  by_cases hwk : I.weekdays.kind = .allK <;>
    by_cases hmk : I.monthdays.kind = .allK <;>
      simp [Interval.matchesDate, hwk, hmk] <;> tauto

/-- The doctest interval `weekdays ExplicitNths [0, 6], monthdays Nth(12)`:
both day specifiers constrained, so OR applies. -/
def mixedInterval : Interval :=
  ⟨⟨0, 59, .allK⟩, ⟨0, 23, .allK⟩, ⟨0, 6, .explicitNths [0, 6]⟩,
   ⟨0, 31, .nth 12⟩, ⟨0, 52, .allK⟩, ⟨0, 11, .allK⟩⟩

/-- C3 witness: Friday 2023-10-13 is neither a Monday nor a Sunday but is
the 13th, and the OR rule accepts it. -/
theorem claim_C3_witness :
    mixedInterval.matchesDate (daysFromCivil 2023 10 13) = true :=
  (claim_C3_matches_date mixedInterval (by decide) (daysFromCivil 2023 10 13)).2
    (by decide)

end Backup

namespace Backup

/-- Rust `ProfileConfig::get_next_scheduled` (config/src/profile_config.rs):
base is the argument if given, else the profile's `next_backup`; when
`next_datetime` finds nothing, fall back to `next_backup` plus 365 days
(`checked_add_days(Days::new(365))`, total in the unbounded date model). -/
def getNextScheduled (I : Interval) (next_backup : DateTime)
    (fromDt : Option DateTime) : DateTime :=
  let base :=
    match fromDt with
    | some datetime => datetime
    | none => next_backup
  match I.nextDatetime base with
  | some datetime => datetime
  | none => next_backup.addDays 365

/-- Rust `is_scheduled` (backupper/src/backup.rs), as a function of the
profile's interval and `next_backup` and of the clock reading `now`.
Returns `(update_next_backup, do_perform_backup)`. -/
def isScheduled (I : Interval) (next_backup : DateTime) (forced : Bool)
    (now : DateTime) : Bool × Bool :=
  if forced then (true, true)
  else if DateTime.ltB now next_backup then (false, false)
  else
    let scheduled := getNextScheduled I next_backup none
    let next_backup_matches := I.matchesDatetime next_backup == .ok
    let scheduled_matches := I.matchesDatetime scheduled == .ok
    let skipped_scheduled := DateTime.leB scheduled now
    (true, next_backup_matches || (skipped_scheduled && scheduled_matches))

/-- The §4.4 decision table read literally with the claim's derived values:
`scheduled := interval.next_datetime(now)` (an `Option`),
`scheduled_matches := scheduled is some ∧ matches_datetime(scheduled) = Ok`,
`skipped_scheduled := scheduled ≤ now` (false when undefined).  This
follows the spec's words, for comparison with the source. -/
def isScheduledClaimed (I : Interval) (next_backup : DateTime) (forced : Bool)
    (now : DateTime) : Bool × Bool :=
  if forced then (true, true)
  else if DateTime.ltB now next_backup then (false, false)
  else
    let scheduled := I.nextDatetime now
    let next_backup_matches := I.matchesDatetime next_backup == .ok
    let scheduled_matches :=
      scheduled.isSome &&
        (match scheduled with
         | some s => I.matchesDatetime s == .ok
         | none => false)
    let skipped_scheduled :=
      match scheduled with
      | some s => DateTime.leB s now
      | none => false
    if next_backup_matches || (skipped_scheduled && scheduled_matches) then (true, true)
    else (true, false)

/-- The §4.4 decision table with the amended derived values: `scheduled :=
get_next_scheduled(None)`, i.e. `interval.next_datetime(next_backup)` with
the 365-day fallback (never none), `scheduled_matches :=
matches_datetime(scheduled) = Ok`, `skipped_scheduled := scheduled ≤ now`. -/
def isScheduledSpec (I : Interval) (next_backup : DateTime) (forced : Bool)
    (now : DateTime) : Bool × Bool :=
  if forced then (true, true)
  else if DateTime.ltB now next_backup then (false, false)
  else
    let scheduled := getNextScheduled I next_backup none
    let next_backup_matches := I.matchesDatetime next_backup == .ok
    let scheduled_matches := I.matchesDatetime scheduled == .ok
    let skipped_scheduled := DateTime.leB scheduled now
    if next_backup_matches || (skipped_scheduled && scheduled_matches) then (true, true)
    else (true, false)

/-- C1 (amended): `is_scheduled` follows the §4.4 decision table once the
derived value `scheduled` is corrected to `get_next_scheduled(None)` —
`interval.next_datetime(next_backup)` with the 365-day fallback — rather
than `interval.next_datetime(now)`. -/
theorem claim_C1_is_scheduled (I : Interval) (next_backup : DateTime)
    (forced : Bool) (now : DateTime) :
    isScheduled I next_backup forced now = isScheduledSpec I next_backup forced now := by
  unfold isScheduled isScheduledSpec
  cases forced with
  | true => simp
  | false =>
    simp only [Bool.false_eq_true, if_false]
    by_cases hlt : DateTime.ltB now next_backup = true
    · simp [hlt]
    · simp only [hlt, if_false, Bool.false_eq_true]
      cases hb : (I.matchesDatetime next_backup == DateTimeMatch.ok ||
          (DateTime.leB (getNextScheduled I next_backup none) now &&
            (I.matchesDatetime (getNextScheduled I next_backup none) == DateTimeMatch.ok))) <;>
        simp [hb]

/-- The hourly interval (minutes `First`, everything else `All`) used by
the C1 counterexample; it passes `validate`. -/
def hourlyInterval : Interval :=
  ⟨⟨0, 59, .firstK⟩, ⟨0, 23, .allK⟩, ⟨0, 6, .allK⟩, ⟨0, 31, .allK⟩,
   ⟨0, 52, .allK⟩, ⟨0, 11, .allK⟩⟩

/-- C1 counterexample: hourly interval, `next_backup` = 2024-01-01 05:30,
`now` = 2024-01-01 10:30, not forced.  The code takes `scheduled =
next_datetime(next_backup) = 06:00 ≤ now` with `matches_datetime(06:00) =
Ok` and runs the backup `(true, true)`; the claim's table computes
`scheduled = next_datetime(now) = 11:00 > now`, so `skipped_scheduled`
fails, `next_backup` (minute 30) does not match, and it answers
`(true, false)`. -/
theorem claim_C1_counterexample :
    hourlyInterval.validateB = true ∧
    isScheduled hourlyInterval ⟨19723, 5, 30, 0⟩ false ⟨19723, 10, 30, 0⟩ = (true, true) ∧
    isScheduledClaimed hourlyInterval ⟨19723, 5, 30, 0⟩ false ⟨19723, 10, 30, 0⟩ =
      (true, false) := by
  exact ⟨by decide, by decide, by decide⟩

end Backup

namespace Backup

/-- Events recorded by the `handle_profile` model, in program order. -/
inductive HEvent where
  | backupTried (ok : Bool)
  | storeTried (next_backup : DateTime) (ok : Bool)
  | scheduleTried (next_backup : DateTime)
  deriving DecidableEq, Repr

/-- Environment of one `handle_profile` invocation: the two clock readings
(`is_scheduled` and the `get_next_scheduled` call each read
`Local::now()`), and the success of the two fallible effects whose errors
the function only prints. -/
structure HandleEnv where
  nowDecide : DateTime
  nowAdvance : DateTime
  backupOk : Bool
  storeOk : Bool
  deriving DecidableEq, Repr

/-- The profile state `handle_profile` reads and writes. -/
structure Profile where
  interval : Interval
  next_backup : DateTime
  deriving DecidableEq, Repr

/-- Rust `handle_profile` (backupper/src/backup.rs): decide via
`is_scheduled`; if due, perform the backup (its error is printed and
swallowed); if requested, advance `next_backup` to
`get_next_scheduled(Some(now))`; store the profile (its error is printed
and swallowed); finally, always register the next trigger at the
possibly-updated `next_backup`.  Returns the written profile and the event
trace. -/
def handleProfile (p : Profile) (env : HandleEnv) (forced : Bool) :
    Profile × List HEvent :=
  let dec := isScheduled p.interval p.next_backup forced env.nowDecide
  let ev1 := if dec.2 then [HEvent.backupTried env.backupOk] else []
  let p' :=
    if dec.1 then
      { p with next_backup := getNextScheduled p.interval p.next_backup (some env.nowAdvance) }
    else p
  (p', ev1 ++ [HEvent.storeTried p'.next_backup env.storeOk,
               HEvent.scheduleTried p'.next_backup])

/-- C7: when the decision asks to advance `next_backup` and
`next_datetime(now)` finds no match in its window, `handle_profile` sets
`next_backup` to the previous `next_backup` plus one year — 365 days, the
spec's own reading of "one year" (§4.2 "within one year (365 days)"). -/
theorem claim_C7_year_fallback (p : Profile) (env : HandleEnv) (forced : Bool)
    (hadv : (isScheduled p.interval p.next_backup forced env.nowDecide).1 = true)
    (hnone : p.interval.nextDatetime env.nowAdvance = none) :
    (handleProfile p env forced).1.next_backup = p.next_backup.addDays 365 := by
  unfold handleProfile getNextScheduled
  simp [hadv, hnone]

/-- The interval with minutes `None` (matches nothing) used by the C7
witness. -/
def noMinutesInterval : Interval :=
  ⟨⟨0, 59, .noneK⟩, ⟨0, 23, .allK⟩, ⟨0, 6, .allK⟩, ⟨0, 31, .allK⟩,
   ⟨0, 52, .allK⟩, ⟨0, 11, .allK⟩⟩

/-- C7 witness: forced invocation of a profile whose interval matches
nothing; `next_backup` moves from 2024-01-01 09:00 to 365 days later. -/
theorem claim_C7_witness :
    (handleProfile ⟨noMinutesInterval, ⟨19723, 9, 0, 0⟩⟩
        ⟨⟨19723, 12, 0, 0⟩, ⟨19723, 12, 0, 5⟩, true, true⟩ true).1.next_backup =
      DateTime.addDays ⟨19723, 9, 0, 0⟩ 365 :=
  claim_C7_year_fallback ⟨noMinutesInterval, ⟨19723, 9, 0, 0⟩⟩
    ⟨⟨19723, 12, 0, 0⟩, ⟨19723, 12, 0, 5⟩, true, true⟩ true (by decide) (by decide)

/-- C10: in every invocation, whatever the outcome of the backup and of the
store (both failure flags are universally quantified and only logged), the
trace ends with the registration attempt, placed immediately after the
persistence attempt, and both carry the newly computed `next_backup`. -/
theorem claim_C10_register_last (p : Profile) (env : HandleEnv) (forced : Bool) :
    ∃ pre,
      (handleProfile p env forced).2 =
        pre ++ [HEvent.storeTried (handleProfile p env forced).1.next_backup env.storeOk,
                HEvent.scheduleTried (handleProfile p env forced).1.next_backup] := by
  refine ⟨if (isScheduled p.interval p.next_backup forced env.nowDecide).2 then
    [HEvent.backupTried env.backupOk] else [], ?_⟩
  rfl

end Backup

namespace Backup

/-- The filesystem metadata `is_target_dir_available` inspects. -/
structure Metadata where
  isDir : Bool
  readonly : Bool
  deriving DecidableEq, Repr

/-- Rust `is_target_dir_available` (backupper/src/common.rs) over the
result of the metadata lookup, with the source's boolean expression kept
verbatim: `Err(_) => false; Ok(m) => m.is_dir() && (!is_writeable &&
!m.permissions().readonly())`. -/
def isTargetDirAvailable (md : Option Metadata) (is_writeable : Bool) : Bool :=
  match md with
  | none => false
  | some metadata => metadata.isDir && (!is_writeable && !metadata.readonly)

/-- The semantics the docstring (and the claim) ascribe to the function:
the metadata lookup succeeds, the path is a directory, and writability is
not required or the directory is not readonly. -/
def isTargetDirAvailableDoc (md : Option Metadata) (is_writeable : Bool) : Bool :=
  match md with
  | none => false
  | some metadata => metadata.isDir && (!is_writeable || !metadata.readonly)

/-- C5: the code contradicts its docstring.  With writability requested the
source expression `!is_writeable && !readonly` is identically false, so the
function rejects every directory, while the documented semantics accept a
writable one (failing input: successful lookup of a non-readonly directory
with `is_writeable = true`); and with `is_writeable = false` the code still
demands a non-readonly directory although the docstring checks existence
only. -/
theorem claim_C5_target_dir_bug :
    (∀ md, isTargetDirAvailable md true = false) ∧
    isTargetDirAvailableDoc (some ⟨true, false⟩) true = true ∧
    isTargetDirAvailable (some ⟨true, true⟩) false = false ∧
    isTargetDirAvailableDoc (some ⟨true, true⟩) false = true := by
  refine ⟨?_, rfl, rfl, rfl⟩
  intro md
  cases md with
  | none => rfl
  | some m => simp [isTargetDirAvailable]

end Backup

namespace Backup

/-- Filesystem tree: a node is a regular file or a directory with named
children (names drawn from an arbitrary component type `α`, standing for
the path components of `PathBuf`). -/
inductive FsNode (α : Type) where
  | file : FsNode α
  | dir : List (α × FsNode α) → FsNode α

/-- The scope fields of `ProfileConfig` the archive producer reads; paths
are component lists (`PathBuf::starts_with` compares component-wise). -/
structure Scope (α : Type) where
  files_to_include : List (List α)
  dirs_to_include : List (List α)
  files_to_exclude : List (List α)
  dirs_to_exclude : List (List α)

/-- Rust `ProfileConfig::is_in_dir`: `path.starts_with(dir)`. -/
def isInDir [DecidableEq α] (path dir : List α) : Bool :=
  dir.isPrefixOf path

/-- Rust `ProfileConfig::is_excluded`. -/
def isExcluded [DecidableEq α] (s : Scope α) (path : List α) : Bool :=
  s.files_to_exclude.any (fun excluded_file => excluded_file == path) ||
    s.dirs_to_exclude.any (fun excluded_dir => isInDir path excluded_dir)

/-- Rust `ProfileConfig::in_included_dirs`. -/
def inIncludedDirs [DecidableEq α] (s : Scope α) (path : List α) : Bool :=
  s.dirs_to_include.any (fun included_dir => isInDir path included_dir)

/-- The paths Rust `add_directory` (backupper/src/backup.rs) streams into
the archive while iterating the children `entries` of the directory at
`path`: excluded entries are skipped without recursing, directories are
walked recursively, regular files are written. -/
def emitsEntries [DecidableEq α] (s : Scope α) :
    List (α × FsNode α) → List α → List (List α)
  | [], _ => []
  | (name, child) :: rest, path =>
    (if isExcluded s (path ++ [name]) then []
     else
       match child with
       | .dir es => emitsEntries s es (path ++ [name])
       | .file => [path ++ [name]]) ++ emitsEntries s rest path

/-- Resolve a path inside a filesystem tree. -/
def lookup [DecidableEq α] : FsNode α → List α → Option (FsNode α)
  | node, [] => some node
  | .file, _ :: _ => none
  | .dir entries, name :: rest =>
    match entries.find? (fun e => e.1 == name) with
    | some e => lookup e.2 rest
    | none => none

/-- Rust `perform_backup` content selection: walk every entry of
`dirs_to_include` that resolves to a directory (`add_directory` rejects
everything else), then run `add_file` on every entry of `files_to_include`
that resolves to a regular file — skipping it when it is covered by an
included directory and not excluded, adding it unconditionally otherwise. -/
def performBackupEmits [DecidableEq α] (fs : FsNode α) (s : Scope α) :
    List (List α) :=
  (s.dirs_to_include.map (fun d =>
    match lookup fs d with
    | some (.dir es) => emitsEntries s es d
    | _ => [])).flatten
  ++ s.files_to_include.filterMap (fun f =>
    match lookup fs f with
    | some .file =>
      if inIncludedDirs s f && !isExcluded s f then none else some f
    | _ => none)

theorem emitsEntries_mem [DecidableEq α] (s : Scope α) :
    ∀ (entries : List (α × FsNode α)) (path : List α),
      ∀ p, p ∈ emitsEntries s entries path →
        isExcluded s p = false ∧ path.isPrefixOf p = true := by
  intro entries path
  induction entries, path using emitsEntries.induct s with
  | case1 path =>
    intro p hp
    simp [emitsEntries] at hp
  | case2 name child rest path hchild ih =>
    intro p hp
    rw [emitsEntries.eq_def] at hp
    simp only [] at hp
    by_cases hex : isExcluded s (path ++ [name]) = true
    · rw [if_pos hex] at hp
      simp only [List.nil_append] at hp
      exact ih p hp
    · rw [if_neg hex] at hp
      rcases List.mem_append.mp hp with h | h
      · cases child with
        | dir es =>
          obtain ⟨h1, h2⟩ := hchild p h
          refine ⟨h1, ?_⟩
          rw [List.isPrefixOf_iff_prefix] at h2 ⊢
          exact (path.prefix_append [name]).trans h2
        | file =>
          rw [List.mem_singleton] at h
          subst h
          refine ⟨by simpa using hex, ?_⟩
          rw [List.isPrefixOf_iff_prefix]
          exact path.prefix_append [name]
      · exact ih p h

end Backup

namespace Backup

/-- C6 (amended): every file path the archive producer emits — through the
directory walk or the file-include pass — is either not excluded and under
some entry of `dirs_to_include`, or is an element of `files_to_include`
(whose pass adds the file unconditionally, overriding the exclusion
list). -/
theorem claim_C6_emitted_paths {α : Type} [DecidableEq α] (fs : FsNode α)
    (s : Scope α) (p : List α) (hp : p ∈ performBackupEmits fs s) :
    (isExcluded s p = false ∧ inIncludedDirs s p = true) ∨
      p ∈ s.files_to_include := by
  unfold performBackupEmits at hp
  rcases List.mem_append.mp hp with h | h
  · left
    rw [List.mem_flatten] at h
    obtain ⟨l, hl, hpl⟩ := h
    rw [List.mem_map] at hl
    obtain ⟨d, hd, rfl⟩ := hl
    split at hpl
    case h_1 es heq =>
      obtain ⟨hex, hpre⟩ := emitsEntries_mem s es d p hpl
      refine ⟨hex, ?_⟩
      simp only [inIncludedDirs, List.any_eq_true]
      exact ⟨d, hd, hpre⟩
    case h_2 =>
      simp at hpl
  · right
    rw [List.mem_filterMap] at h
    obtain ⟨f, hf, hfp⟩ := h
    split at hfp
    case h_1 =>
      by_cases hc : (inIncludedDirs s f && !isExcluded s f) = true
      · rw [if_pos hc] at hfp
        exact absurd hfp (by simp)
      · rw [if_neg hc] at hfp
        injection hfp with hfp
        subst hfp
        exact hf
    case h_2 =>
      exact absurd hfp (by simp)

/-- C6 counterexample: with `files_to_include = [[0]]`,
`files_to_exclude = [[0]]` and no include directories, the file-include
pass archives path `[0]` even though it is excluded and under no included
directory, so the claimed invariant `¬is_excluded(p) ∧ (p under
dirs_to_include ∨ p ∈ files_to_include)` fails on an emitted path. -/
theorem claim_C6_counterexample :
    [0] ∈ performBackupEmits (FsNode.dir [(0, FsNode.file)])
      (⟨[[0]], [], [[0]], []⟩ : Scope Nat) ∧
    isExcluded (⟨[[0]], [], [[0]], []⟩ : Scope Nat) [0] = true ∧
    inIncludedDirs (⟨[[0]], [], [[0]], []⟩ : Scope Nat) [0] = false := by
  exact ⟨by decide, by decide, by decide⟩

/-- C6 witness: the amended theorem applied to a concrete walk — the tree
`/0/1` with `dirs_to_include = [[0]]` emits `[0, 1]`. -/
theorem claim_C6_witness :
    (isExcluded (⟨[], [[0]], [], []⟩ : Scope Nat) [0, 1] = false ∧
      inIncludedDirs (⟨[], [[0]], [], []⟩ : Scope Nat) [0, 1] = true) ∨
    [0, 1] ∈ (⟨[], [[0]], [], []⟩ : Scope Nat).files_to_include :=
  claim_C6_emitted_paths (FsNode.dir [(0, FsNode.dir [(1, FsNode.file)])])
    ⟨[], [[0]], [], []⟩ [0, 1]
    (by simp [performBackupEmits, lookup, emitsEntries, isExcluded, isInDir])

end Backup

namespace Backup

/-- Rust `str::starts_with` on character lists. -/
def strStarts (pre sVal : List Char) : Bool :=
  pre.isPrefixOf sVal

/-- Rust `str::ends_with` on character lists. -/
def strEnds (suf sVal : List Char) : Bool :=
  suf.isSuffixOf sVal

/-- The literal `".zip"`. -/
def zipSuffix : List Char := ['.', 'z', 'i', 'p']

/-- A directory entry as `read_dir` yields it (names modelled as character
lists; `file_name().to_str()` is assumed to succeed). -/
structure DirEntry where
  name : List Char
  isDir : Bool
  deriving DecidableEq, Repr

/-- Environment of one `delete` invocation: the outcome of the directory
listing, its entries, and the outcomes of the unschedule call and of the
profile-record removal. -/
structure DeleteEnv where
  readDirOk : Bool
  entries : List DirEntry
  unscheduleOk : Bool
  removeRecordOk : Bool
  deriving DecidableEq, Repr

/-- Observable actions of the delete coordinator, in program order. -/
inductive DEvent where
  | unscheduled
  | removedArchive (name : List Char)
  | rescheduled (next_backup : DateTime)
  | removedRecord
  deriving DecidableEq, Repr

/-- Rust `delete_backup_files` (backupper/src/delete.rs): fails only when
`read_dir` fails; otherwise it attempts to remove every non-directory
entry whose name starts with the hyphenated uuid and ends with `.zip`
(per-file `remove_file` failures are logged and swallowed, so they do not
affect the `Ok` result; a `removedArchive` event records each attempted
removal). -/
def deleteBackupFiles (uuid : List Char) (env : DeleteEnv) :
    Except Unit (List DEvent) :=
  if !env.readDirOk then .error ()
  else
    .ok ((env.entries.map (fun e =>
      if e.isDir then []
      else if strStarts uuid e.name && strEnds zipSuffix e.name then
        [DEvent.removedArchive e.name]
      else [])).flatten)

/-- The record-removal step of `delete`: remove `<uuid>.json`, and on
failure re-register the trigger at the profile's `next_backup`. -/
def deleteRecordStep (env : DeleteEnv) (next_backup : DateTime) : List DEvent :=
  if env.removeRecordOk then [DEvent.removedRecord]
  else [DEvent.rescheduled next_backup]

/-- Rust `delete` (backupper/src/delete.rs): unschedule (abort on failure);
if `delete_backups`, delete the archive files and on failure re-register
the trigger and abort; finally delete the profile record, re-registering
the trigger on failure. -/
def deleteProfile (uuid : List Char) (next_backup : DateTime) (env : DeleteEnv)
    (delete_backups : Bool) : List DEvent :=
  if !env.unscheduleOk then []
  else
    DEvent.unscheduled ::
      (if delete_backups then
        match deleteBackupFiles uuid env with
        | .error _ => [DEvent.rescheduled next_backup]
        | .ok evs => evs ++ deleteRecordStep env next_backup
      else deleteRecordStep env next_backup)

/-- The archive names a trace removed, in order. -/
def archiveRemovals : List DEvent → List (List Char)
  | [] => []
  | .removedArchive n :: rest => n :: archiveRemovals rest
  | .unscheduled :: rest => archiveRemovals rest
  | .rescheduled _ :: rest => archiveRemovals rest
  | .removedRecord :: rest => archiveRemovals rest

end Backup

namespace Backup

theorem archiveRemovals_append (a b : List DEvent) :
    archiveRemovals (a ++ b) = archiveRemovals a ++ archiveRemovals b := by
  induction a with
  | nil => rfl
  | cons e rest ih =>
    cases e <;> simp [archiveRemovals, ih]

theorem archiveRemovals_entries (uuid : List Char) (entries : List DirEntry) :
    archiveRemovals ((entries.map (fun e =>
      if e.isDir then []
      else if strStarts uuid e.name && strEnds zipSuffix e.name then
        [DEvent.removedArchive e.name]
      else [])).flatten) =
    (entries.filter (fun e =>
      !e.isDir && (strStarts uuid e.name && strEnds zipSuffix e.name))).map
      (fun e => e.name) := by
  induction entries with
  | nil => rfl
  | cons e rest ih =>
    simp only [List.map_cons, List.flatten_cons, archiveRemovals_append, ih,
      List.filter_cons]
    cases hd : e.isDir with
    | true => simp [archiveRemovals]
    | false =>
      cases hm : (strStarts uuid e.name && strEnds zipSuffix e.name) with
      | true => simp [archiveRemovals]
      | false => simp [archiveRemovals]

/-- C8 (amended): assuming the unschedule step succeeded, (1) when listing
`target_dir` fails — the only failure `delete_backup_files` reports, since
per-file removal errors are logged and swallowed — the coordinator
re-registers the trigger at the profile's `next_backup` and aborts without
deleting the persisted record (the whole trace is exactly
`[unscheduled, rescheduled]`); (2) otherwise the files targeted for
deletion are exactly the non-directory entries whose name starts with the
profile id — with no underscore required — and ends with `.zip`. -/
theorem claim_C8_delete (uuid : List Char) (next_backup : DateTime)
    (env : DeleteEnv) (hu : env.unscheduleOk = true) :
    (env.readDirOk = false →
      deleteProfile uuid next_backup env true =
        [DEvent.unscheduled, DEvent.rescheduled next_backup]) ∧
    (env.readDirOk = true →
      archiveRemovals (deleteProfile uuid next_backup env true) =
        (env.entries.filter (fun e =>
          !e.isDir && (strStarts uuid e.name && strEnds zipSuffix e.name))).map
          (fun e => e.name)) := by
  constructor
  · intro h
    simp [deleteProfile, deleteBackupFiles, hu, h]
  · intro h
    simp only [deleteProfile, deleteBackupFiles, hu, h, Bool.not_true,
      Bool.false_eq_true, if_false, if_true, Bool.not_false]
    rw [archiveRemovals, archiveRemovals_append, archiveRemovals_entries]
    cases hr : env.removeRecordOk <;>
      simp [deleteRecordStep, archiveRemovals, hr]

/-- C8 counterexample: with profile id `u`, the file `u.zip` does not match
the glob `u_*.zip` of the claim, yet `delete` removes it — the source
matcher requires only the id as prefix, without the underscore. -/
theorem claim_C8_counterexample :
    DEvent.removedArchive ['u', '.', 'z', 'i', 'p'] ∈
      deleteProfile ['u'] ⟨0, 0, 0, 0⟩
        ⟨true, [⟨['u', '.', 'z', 'i', 'p'], false⟩], true, true⟩ true ∧
    strStarts (['u'] ++ ['_']) ['u', '.', 'z', 'i', 'p'] = false := by
  exact ⟨by decide, by decide⟩

/-- C8 witness: the amended theorem applied to a failing directory listing
with the unschedule step succeeded: the trace is the compensation pair. -/
theorem claim_C8_witness :
    deleteProfile ['u'] ⟨0, 0, 0, 0⟩ ⟨false, [], true, true⟩ true =
      [DEvent.unscheduled, DEvent.rescheduled ⟨0, 0, 0, 0⟩] :=
  (claim_C8_delete ['u'] ⟨0, 0, 0, 0⟩ ⟨false, [], true, true⟩ rfl).1 rfl

end Backup

namespace Backup

/-- A timestamp as `chrono` parses it from `%Y-%m-%d_%H-%M` (seconds
default to 0); comparisons are calendar-lexicographic, as `chrono` orders
`NaiveDateTime`. -/
structure Stamp where
  y : Int
  mo : Nat
  d : Nat
  h : Nat
  mi : Nat
  sec : Nat
  deriving DecidableEq, Repr

/-- Calendar-lexicographic non-strict order on parsed timestamps. -/
def stampLeB (a b : Stamp) : Bool :=
  a.y < b.y || (a.y == b.y &&
    (a.mo < b.mo || (a.mo == b.mo &&
      (a.d < b.d || (a.d == b.d &&
        (a.h < b.h || (a.h == b.h &&
          (a.mi < b.mi || (a.mi == b.mi && a.sec ≤ b.sec)))))))))

/-- Calendar-lexicographic strict order on parsed timestamps. -/
def stampLtB (a b : Stamp) : Bool :=
  a.y < b.y || (a.y == b.y &&
    (a.mo < b.mo || (a.mo == b.mo &&
      (a.d < b.d || (a.d == b.d &&
        (a.h < b.h || (a.h == b.h &&
          (a.mi < b.mi || (a.mi == b.mi && a.sec < b.sec)))))))))

/-- Decimal digit test. -/
def isDigitCh (c : Char) : Bool :=
  '0' ≤ c && c ≤ '9'

/-- Value of a decimal digit. -/
def digitVal (c : Char) : Nat :=
  c.toNat - 48

/-- Parse exactly two digits. -/
def parse2 : List Char → Option (Nat × List Char)
  | c1 :: c2 :: rest =>
    if isDigitCh c1 && isDigitCh c2 then
      some (digitVal c1 * 10 + digitVal c2, rest)
    else none
  | _ => none

/-- Parse exactly four digits. -/
def parse4 : List Char → Option (Nat × List Char)
  | c1 :: c2 :: c3 :: c4 :: rest =>
    if isDigitCh c1 && isDigitCh c2 && isDigitCh c3 && isDigitCh c4 then
      some (digitVal c1 * 1000 + digitVal c2 * 100 + digitVal c3 * 10 + digitVal c4, rest)
    else none
  | _ => none

/-- Consume one expected character. -/
def expectChar (c : Char) : List Char → Option (List Char)
  | d :: rest => if d == c then some rest else none
  | [] => none

/-- Length of a month in the proleptic Gregorian calendar. -/
def daysInMonth (y : Int) (mo : Nat) : Nat :=
  if mo = 2 then (if isLeap y then 29 else 28)
  else if mo = 4 ∨ mo = 6 ∨ mo = 9 ∨ mo = 11 then 30
  else 31

/-- Models `chrono`'s `NaiveDateTime::parse_from_str(s, "%Y-%m-%d_%H-%M")`
for the four-digit years the archive producer writes: fixed-width numeric
fields, the whole input consumed, month/day validated against the
calendar, hour and minute against their ranges, seconds defaulting to 0. -/
def parseStamp (sVal : List Char) : Option Stamp := do
  let (y, r1) ← parse4 sVal
  let r2 ← expectChar '-' r1
  let (mo, r3) ← parse2 r2
  let r4 ← expectChar '-' r3
  let (d, r5) ← parse2 r4
  let r6 ← expectChar '_' r5
  let (h, r7) ← parse2 r6
  let r8 ← expectChar '-' r7
  let (mi, r9) ← parse2 r8
  if r9 = [] ∧ 1 ≤ mo ∧ mo ≤ 12 ∧ 1 ≤ d ∧ d ≤ daysInMonth (Int.ofNat y) mo ∧
      h ≤ 23 ∧ mi ≤ 59 then
    some ⟨Int.ofNat y, mo, d, h, mi, 0⟩
  else none

/-- Strip a trailing suffix, `None` when absent (Rust `str::strip_suffix`). -/
def stripSuffixL (suf sVal : List Char) : Option (List Char) :=
  if suf.isSuffixOf sVal then some (sVal.take (sVal.length - suf.length)) else none

/-- Strip a leading part, `None` when absent (Rust `str::strip_prefix`). -/
def dropLeading (pre sVal : List Char) : Option (List Char) :=
  if pre.isPrefixOf sVal then some (sVal.drop pre.length) else none

/-- The candidate pipeline of `find_backup_archive` (backupper/src/restore.rs):
strip the trailing `.zip` (`unwrap_or("")`), strip the leading
`<uuid>_` (`unwrap_or("")`), then parse the remainder; a failed strip
leaves the empty string, which the parser rejects, so the candidate is
skipped. -/
def candStamp (uuid name : List Char) : Option Stamp :=
  parseStamp ((dropLeading (uuid ++ ['_'])
    ((stripSuffixL zipSuffix name).getD [])).getD [])

/-- The selection loop of `find_backup_archive`: keep the candidate with
the latest parsed timestamp that is `≤ ts` (strictly later than the
current best, so the first found wins ties). -/
def findGo (uuid : List Char) (ts : Stamp) :
    List DirEntry → Option (Stamp × List Char) → Option (Stamp × List Char)
  | [], best => best
  | e :: rest, best =>
    if e.isDir then findGo uuid ts rest best
    else
      match candStamp uuid e.name with
      | none => findGo uuid ts rest best
      | some creation_date =>
        if stampLeB creation_date ts &&
            (match best with
             | none => true
             | some (curr_best_date, _) => stampLtB curr_best_date creation_date) then
          findGo uuid ts rest (some (creation_date, e.name))
        else findGo uuid ts rest best

/-- Rust `find_backup_archive`: `None` when the directory listing fails,
otherwise the path of the best candidate. -/
def findBackupArchive (uuid : List Char) (readDirOk : Bool)
    (entries : List DirEntry) (ts : Stamp) : Option (List Char) :=
  if !readDirOk then none
  else (findGo uuid ts entries none).map (fun best_backup => best_backup.2)

/-- Rust `restore`, reduced to its observable extraction action (the
target directory is assumed reachable): nothing is restored when no
candidate qualifies. -/
def restoreModel (uuid : List Char) (readDirOk : Bool)
    (entries : List DirEntry) (ts : Stamp) : List (List Char) :=
  match findBackupArchive uuid readDirOk entries ts with
  | none => []
  | some best_backup => [best_backup]

end Backup

namespace Backup

theorem stampLe_refl (a : Stamp) : stampLeB a a = true := by
  simp [stampLeB]

theorem stampLe_trans {a b c : Stamp} (h1 : stampLeB a b = true) (h2 : stampLeB b c = true) :
    stampLeB a c = true := by
  simp only [stampLeB, Bool.or_eq_true, Bool.and_eq_true, decide_eq_true_eq, beq_iff_eq]
    at h1 h2 ⊢
  omega

theorem stampLe_of_lt {a b : Stamp} (h : stampLtB a b = true) : stampLeB a b = true := by
  simp only [stampLtB, Bool.or_eq_true, Bool.and_eq_true, decide_eq_true_eq, beq_iff_eq] at h
  simp only [stampLeB, Bool.or_eq_true, Bool.and_eq_true, decide_eq_true_eq, beq_iff_eq]
  omega

theorem stampLe_of_not_lt {a b : Stamp} (h : stampLtB a b = false) : stampLeB b a = true := by
  have h' : ¬ (stampLtB a b = true) := by simp [h]
  simp only [stampLtB, Bool.or_eq_true, Bool.and_eq_true, decide_eq_true_eq, beq_iff_eq] at h'
  simp only [stampLeB, Bool.or_eq_true, Bool.and_eq_true, decide_eq_true_eq, beq_iff_eq]
  omega

end Backup

namespace Backup

/-- Full characterization of the selection loop of `find_backup_archive`,
by induction on the remaining entries, generalizing the running best:
if the loop answers `none` the accumulator was empty and no qualifying
candidate occurs among the entries; if it answers `some (b, p)` then
`b ≤ ts`, the pair is the accumulator or comes from a non-directory entry
named `p`, every qualifying candidate among the entries is `≤ b`, and the
accumulator (if any) is `≤ b`. -/
theorem findGo_spec (uuid : List Char) (ts : Stamp) (entries : List DirEntry) :
    ∀ (best : Option (Stamp × List Char)),
    (∀ b p, best = some (b, p) → stampLeB b ts = true) →
    ((findGo uuid ts entries best = none → best = none ∧
        ∀ e ∈ entries, e.isDir = false → ∀ cd, candStamp uuid e.name = some cd →
          stampLeB cd ts = false) ∧
     (∀ b p, findGo uuid ts entries best = some (b, p) →
        stampLeB b ts = true ∧
        (best = some (b, p) ∨
          (∃ e ∈ entries, e.isDir = false ∧ e.name = p ∧ candStamp uuid p = some b)) ∧
        (∀ e ∈ entries, e.isDir = false → ∀ cd, candStamp uuid e.name = some cd →
          stampLeB cd ts = true → stampLeB cd b = true) ∧
        (∀ b0 p0, best = some (b0, p0) → stampLeB b0 b = true))) := by
  induction entries with
  | nil =>
    intro best hbest
    refine ⟨?_, ?_⟩
    · intro h
      simp only [findGo] at h
      refine ⟨h, ?_⟩
      intro e he
      exact absurd he (List.not_mem_nil e)
    · intro b p h
      simp only [findGo] at h
      refine ⟨hbest b p h, Or.inl h, ?_, ?_⟩
      · intro e he
        exact absurd he (List.not_mem_nil e)
      · intro b0 p0 h0
        rw [h] at h0
        simp only [Option.some.injEq, Prod.mk.injEq] at h0
        obtain ⟨rfl, rfl⟩ := h0
        exact stampLe_refl b
  | cons e rest ih =>
    intro best hbest
    cases hd : e.isDir with
    | true =>
      have hstep : findGo uuid ts (e :: rest) best = findGo uuid ts rest best := by
        simp [findGo, hd]
      obtain ⟨ihn, ihs⟩ := ih best hbest
      refine ⟨?_, ?_⟩
      · intro h
        rw [hstep] at h
        obtain ⟨h1, h2⟩ := ihn h
        refine ⟨h1, ?_⟩
        intro e' he' hde cd hcd
        rcases List.mem_cons.mp he' with rfl | hm
        · rw [hde] at hd
          exact Bool.noConfusion hd
        · exact h2 e' hm hde cd hcd
      · intro b p h
        rw [hstep] at h
        obtain ⟨q1, q2, q3, q4⟩ := ihs b p h
        refine ⟨q1, ?_, ?_, q4⟩
        · rcases q2 with h2 | ⟨e', he', hde', hp, hcd'⟩
          · exact Or.inl h2
          · exact Or.inr ⟨e', List.mem_cons_of_mem _ he', hde', hp, hcd'⟩
        · intro e' he' hde cd hcd hle
          rcases List.mem_cons.mp he' with rfl | hm
          · rw [hde] at hd
            exact Bool.noConfusion hd
          · exact q3 e' hm hde cd hcd hle
    | false =>
      cases hcs : candStamp uuid e.name with
      | none =>
        have hstep : findGo uuid ts (e :: rest) best = findGo uuid ts rest best := by
          simp [findGo, hd, hcs]
        obtain ⟨ihn, ihs⟩ := ih best hbest
        refine ⟨?_, ?_⟩
        · intro h
          rw [hstep] at h
          obtain ⟨h1, h2⟩ := ihn h
          refine ⟨h1, ?_⟩
          intro e' he' hde cd hcd
          rcases List.mem_cons.mp he' with rfl | hm
          · rw [hcs] at hcd
            exact Option.noConfusion hcd
          · exact h2 e' hm hde cd hcd
        · intro b p h
          rw [hstep] at h
          obtain ⟨q1, q2, q3, q4⟩ := ihs b p h
          refine ⟨q1, ?_, ?_, q4⟩
          · rcases q2 with h2 | ⟨e', he', hde', hp, hcd'⟩
            · exact Or.inl h2
            · exact Or.inr ⟨e', List.mem_cons_of_mem _ he', hde', hp, hcd'⟩
          · intro e' he' hde cd hcd hle
            rcases List.mem_cons.mp he' with rfl | hm
            · rw [hcs] at hcd
              exact Option.noConfusion hcd
            · exact q3 e' hm hde cd hcd hle
      | some cd0 =>
        cases best with
        | none =>
          cases hle : stampLeB cd0 ts with
          | false =>
            have hstep : findGo uuid ts (e :: rest) none = findGo uuid ts rest none := by
              simp [findGo, hd, hcs, hle]
            obtain ⟨ihn, ihs⟩ := ih none (by intro b p hb; exact Option.noConfusion hb)
            refine ⟨?_, ?_⟩
            · intro h
              rw [hstep] at h
              obtain ⟨h1, h2⟩ := ihn h
              refine ⟨h1, ?_⟩
              intro e' he' hde cd hcd
              rcases List.mem_cons.mp he' with rfl | hm
              · rw [hcs] at hcd
                injection hcd with hcd'
                rw [← hcd']
                exact hle
              · exact h2 e' hm hde cd hcd
            · intro b p h
              rw [hstep] at h
              obtain ⟨q1, q2, q3, q4⟩ := ihs b p h
              refine ⟨q1, ?_, ?_, ?_⟩
              · rcases q2 with h2 | ⟨e', he', hde', hp, hcd'⟩
                · exact Or.inl h2
                · exact Or.inr ⟨e', List.mem_cons_of_mem _ he', hde', hp, hcd'⟩
              · intro e' he' hde cd hcd hle'
                rcases List.mem_cons.mp he' with rfl | hm
                · rw [hcs] at hcd
                  injection hcd with hcd'
                  rw [← hcd', hle] at hle'
                  exact Bool.noConfusion hle'
                · exact q3 e' hm hde cd hcd hle'
              · intro b0 p0 h0
                exact Option.noConfusion h0
          | true =>
            have hstep : findGo uuid ts (e :: rest) none =
                findGo uuid ts rest (some (cd0, e.name)) := by
              simp [findGo, hd, hcs, hle]
            have hbase : ∀ b p, (some (cd0, e.name) : Option (Stamp × List Char)) = some (b, p) →
                stampLeB b ts = true := by
              intro b p hb
              simp only [Option.some.injEq, Prod.mk.injEq] at hb
              obtain ⟨rfl, rfl⟩ := hb
              exact hle
            obtain ⟨ihn, ihs⟩ := ih (some (cd0, e.name)) hbase
            refine ⟨?_, ?_⟩
            · intro h
              rw [hstep] at h
              obtain ⟨h1, _⟩ := ihn h
              exact Option.noConfusion h1
            · intro b p h
              rw [hstep] at h
              obtain ⟨q1, q2, q3, q4⟩ := ihs b p h
              refine ⟨q1, ?_, ?_, ?_⟩
              · rcases q2 with h2 | ⟨e', he', hde', hp, hcd'⟩
                · right
                  simp only [Option.some.injEq, Prod.mk.injEq] at h2
                  obtain ⟨rfl, rfl⟩ := h2
                  exact ⟨e, List.mem_cons_self e rest, hd, rfl, hcs⟩
                · exact Or.inr ⟨e', List.mem_cons_of_mem _ he', hde', hp, hcd'⟩
              · intro e' he' hde cd hcd hle'
                rcases List.mem_cons.mp he' with rfl | hm
                · rw [hcs] at hcd
                  injection hcd with hcd'
                  rw [← hcd']
                  exact q4 cd0 _ rfl
                · exact q3 e' hm hde cd hcd hle'
              · intro b0 p0 h0
                exact Option.noConfusion h0
        | some bp =>
          obtain ⟨b0, p0⟩ := bp
          cases hcond : stampLeB cd0 ts && stampLtB b0 cd0 with
          | false =>
            have hstep : findGo uuid ts (e :: rest) (some (b0, p0)) =
                findGo uuid ts rest (some (b0, p0)) := by
              simp only [findGo, hd, hcs]
              simp [hcond]
            obtain ⟨ihn, ihs⟩ := ih (some (b0, p0)) hbest
            refine ⟨?_, ?_⟩
            · intro h
              rw [hstep] at h
              obtain ⟨h1, _⟩ := ihn h
              exact Option.noConfusion h1
            · intro b p h
              rw [hstep] at h
              obtain ⟨q1, q2, q3, q4⟩ := ihs b p h
              refine ⟨q1, ?_, ?_, q4⟩
              · rcases q2 with h2 | ⟨e', he', hde', hp, hcd'⟩
                · exact Or.inl h2
                · exact Or.inr ⟨e', List.mem_cons_of_mem _ he', hde', hp, hcd'⟩
              · intro e' he' hde cd hcd hle'
                rcases List.mem_cons.mp he' with rfl | hm
                · rw [hcs] at hcd
                  injection hcd with hcd'
                  subst hcd'
                  have hor : stampLeB cd0 ts = false ∨ stampLtB b0 cd0 = false := by
                    cases hA : stampLeB cd0 ts
                    · exact Or.inl rfl
                    · cases hB : stampLtB b0 cd0
                      · exact Or.inr rfl
                      · rw [hA, hB] at hcond
                        simp at hcond
                  rcases hor with hA | hB
                  · rw [hle'] at hA
                    exact Bool.noConfusion hA
                  · exact stampLe_trans (stampLe_of_not_lt hB) (q4 b0 p0 rfl)
                · exact q3 e' hm hde cd hcd hle'
          | true =>
            have hle : stampLeB cd0 ts = true := by
              cases hA : stampLeB cd0 ts
              · rw [hA] at hcond
                simp at hcond
              · rfl
            have hlt : stampLtB b0 cd0 = true := by
              cases hB : stampLtB b0 cd0
              · rw [hB] at hcond
                simp at hcond
              · rfl
            have hstep : findGo uuid ts (e :: rest) (some (b0, p0)) =
                findGo uuid ts rest (some (cd0, e.name)) := by
              simp only [findGo, hd, hcs]
              simp [hcond]
            have hbase : ∀ b p, (some (cd0, e.name) : Option (Stamp × List Char)) = some (b, p) →
                stampLeB b ts = true := by
              intro b p hb
              simp only [Option.some.injEq, Prod.mk.injEq] at hb
              obtain ⟨rfl, rfl⟩ := hb
              exact hle
            obtain ⟨ihn, ihs⟩ := ih (some (cd0, e.name)) hbase
            refine ⟨?_, ?_⟩
            · intro h
              rw [hstep] at h
              obtain ⟨h1, _⟩ := ihn h
              exact Option.noConfusion h1
            · intro b p h
              rw [hstep] at h
              obtain ⟨q1, q2, q3, q4⟩ := ihs b p h
              refine ⟨q1, ?_, ?_, ?_⟩
              · rcases q2 with h2 | ⟨e', he', hde', hp, hcd'⟩
                · right
                  simp only [Option.some.injEq, Prod.mk.injEq] at h2
                  obtain ⟨rfl, rfl⟩ := h2
                  exact ⟨e, List.mem_cons_self e rest, hd, rfl, hcs⟩
                · exact Or.inr ⟨e', List.mem_cons_of_mem _ he', hde', hp, hcd'⟩
              · intro e' he' hde cd hcd hle'
                rcases List.mem_cons.mp he' with rfl | hm
                · rw [hcs] at hcd
                  injection hcd with hcd'
                  rw [← hcd']
                  exact q4 cd0 _ rfl
                · exact q3 e' hm hde cd hcd hle'
              · intro b1 p1 h1
                simp only [Option.some.injEq, Prod.mk.injEq] at h1
                obtain ⟨rfl, rfl⟩ := h1
                exact stampLe_trans (stampLe_of_lt hlt) (q4 cd0 e.name rfl)

end Backup

namespace Backup

/-- C9: for every profile id, directory listing and target instant `ts`,
`find_backup_archive` selects among the non-directory entries whose name,
after stripping the trailing `.zip` and the leading `<uuid>_`, parses as
`%Y-%m-%d_%H-%M`, the one with the latest timestamp that is `≤ ts`
(candidates failing any strip or parse step are skipped): a `some p`
answer names such an entry whose candidate timestamp qualifies and
dominates every qualifying candidate; a `none` answer makes the restore a
no-op, and - when the directory listing was readable - occurs exactly when
no candidate qualifies. -/
theorem claim_C9_find_backup (uuid : List Char) (readDirOk : Bool)
    (entries : List DirEntry) (ts : Stamp) :
    (∀ p, findBackupArchive uuid readDirOk entries ts = some p →
      ∃ e ∈ entries, e.isDir = false ∧ e.name = p ∧
        ∃ cd, candStamp uuid p = some cd ∧ stampLeB cd ts = true ∧
          ∀ e' ∈ entries, e'.isDir = false →
            ∀ cd', candStamp uuid e'.name = some cd' → stampLeB cd' ts = true →
              stampLeB cd' cd = true) ∧
    (findBackupArchive uuid readDirOk entries ts = none →
      restoreModel uuid readDirOk entries ts = []) ∧
    (readDirOk = true → findBackupArchive uuid readDirOk entries ts = none →
      ∀ e ∈ entries, e.isDir = false →
        ∀ cd, candStamp uuid e.name = some cd → stampLeB cd ts = false) := by
  refine ⟨?_, ?_, ?_⟩
  · intro p h
    rcases Bool.dichotomy readDirOk with hr | hr
    · rw [hr] at h
      simp [findBackupArchive] at h
    · rw [hr] at h
      simp only [findBackupArchive, Bool.not_true, Bool.false_eq_true, if_false,
        Option.map_eq_some'] at h
      obtain ⟨⟨b, q⟩, hg, hpq⟩ := h
      obtain ⟨q1, q2, q3, _⟩ :=
        (findGo_spec uuid ts entries none (by intro b' p' hb; exact Option.noConfusion hb)).2
          b q hg
      rcases q2 with h2 | ⟨e, he, hde, hname, hcand⟩
      · exact Option.noConfusion h2
      · dsimp only at hpq
        subst hpq
        exact ⟨e, he, hde, hname, b, hcand, q1,
          fun e' he' hde' cd' hcd' hle' => q3 e' he' hde' cd' hcd' hle'⟩
  · intro h
    simp only [restoreModel, h]
  · intro hr h e he hde cd hcd
    rw [hr] at h
    simp only [findBackupArchive, Bool.not_true, Bool.false_eq_true, if_false,
      Option.map_eq_none'] at h
    exact ((findGo_spec uuid ts entries none
      (by intro b' p' hb; exact Option.noConfusion hb)).1 h).2 e he hde cd hcd

/-- Concrete profile id for exercising the restore selector. -/
def c9uuid : List Char := ['u']

/-- Concrete target instant 2024-06-01 00:00. -/
def c9ts : Stamp := ⟨2024, 6, 1, 0, 0, 0⟩

/-- Archive name `u_2024-01-01_10-30.zip`. -/
def c9nameA : List Char :=
  ['u', '_', '2', '0', '2', '4', '-', '0', '1', '-', '0', '1', '_', '1', '0', '-', '3', '0',
   '.', 'z', 'i', 'p']

/-- Archive name `u_2023-05-05_09-00.zip`. -/
def c9nameB : List Char :=
  ['u', '_', '2', '0', '2', '3', '-', '0', '5', '-', '0', '5', '_', '0', '9', '-', '0', '0',
   '.', 'z', 'i', 'p']

/-- A listing holding both archives, older first. -/
def c9entries : List DirEntry := [⟨c9nameB, false⟩, ⟨c9nameA, false⟩]

theorem claim_C9_witness :
    ∃ e ∈ c9entries, e.isDir = false ∧ e.name = c9nameA ∧
      ∃ cd, candStamp c9uuid c9nameA = some cd ∧ stampLeB cd c9ts = true ∧
        ∀ e' ∈ c9entries, e'.isDir = false →
          ∀ cd', candStamp c9uuid e'.name = some cd' → stampLeB cd' c9ts = true →
            stampLeB cd' cd = true :=
  (claim_C9_find_backup c9uuid true c9entries c9ts).1 c9nameA (by decide)

end Backup
